import Mathlib

/-!
Verification of the AskSEC SEC-10K filing pipeline: a shallow embedding of
the section parser (`src/data/parser.py`), the document chunker
(`src/data/preprocessor.py`) and the RAG query orchestrator
(`src/rag/chain.py`), with theorems settling the frozen claims about them.

Text is embedded as `List Char`.  Python regular expressions appear only in
fixed, literal-based patterns, which are translated into explicit scanning
functions with Python `re` semantics (leftmost non-overlapping matches,
greedy repetition).  Python's `str.strip`, `str.replace`, `str.upper` and
`re.IGNORECASE` act on ASCII data throughout this repository; the embeddings
below implement their ASCII behaviour.
-/

deriving instance DecidableEq for Except

namespace AskSEC

/-- Text is a list of characters; offsets are indices into such lists. -/
abbrev Str := List Char

/-- Conversion from Lean string literals. -/
def str (s : String) : Str := s.data

/-- The tab character. -/
def tabChar : Char := Char.ofNat 9

/-- The newline character. -/
def nlChar : Char := Char.ofNat 10

/-- The vertical-tab character. -/
def vtChar : Char := Char.ofNat 11

/-- The form-feed character. -/
def ffChar : Char := Char.ofNat 12

/-- The carriage-return character. -/
def crChar : Char := Char.ofNat 13

/-- The ASCII double quote. -/
def dq : Char := Char.ofNat 34

/-- The ASCII apostrophe. -/
def apos : Char := Char.ofNat 39

/-- The Unicode em dash, which appears in the parser's punctuation class. -/
def emDash : Char := Char.ofNat 0x2014

/-- The Unicode en dash, normalized away by `_clean_text`. -/
def enDash : Char := Char.ofNat 0x2013

/-- Python's whitespace class (`\s`, and the characters stripped by
`str.strip()`): space, tab, newline, carriage return, vertical tab and form
feed.  (Python also treats some non-ASCII characters as whitespace; every
text handled here is ASCII.) -/
def isPySpace (c : Char) : Bool :=
  c = ' ' || c = tabChar || c = nlChar || c = crChar || c = vtChar || c = ffChar

/-- Python's `\d` on ASCII text: the decimal digits. -/
def isDigitA (c : Char) : Bool := '0' ≤ c && c ≤ '9'

/-- Dropping a prefix cannot lengthen a list (used for termination of the
scanners below). -/
theorem dropWhile_len_le (p : Char → Bool) (l : List Char) :
    (l.dropWhile p).length ≤ l.length := by
  induction l with
  | nil => simp [List.dropWhile]
  | cons c cs ih =>
    simp only [List.dropWhile]
    split
    · exact Nat.le_succ_of_le ih
    · simp

/-- Python `str.strip()`: remove leading and trailing whitespace. -/
def pyStrip (s : Str) : Str :=
  ((s.dropWhile isPySpace).reverse.dropWhile isPySpace).reverse

/-- Scanner for Python `str.replace(old, new)` with a non-empty `old`:
replace each non-overlapping occurrence, scanning left to right.  `skip`
counts characters of an already-replaced occurrence still to be consumed
(the structural form of resuming the scan after the match). -/
def pyReplaceGo (old new : Str) : Nat → Str → Str
  | _, [] => []
  | k + 1, _ :: cs => pyReplaceGo old new k cs
  | 0, c :: cs =>
    if old ≠ [] ∧ old.isPrefixOf (c :: cs) then
      new ++ pyReplaceGo old new (old.length - 1) cs
    else
      c :: pyReplaceGo old new 0 cs

/-- Python `str.replace(old, new)` for a non-empty `old`. -/
def pyReplace (old new : Str) (s : Str) : Str := pyReplaceGo old new 0 s

/-- Case-insensitive prefix test for ASCII patterns (`re.IGNORECASE`),
returning the rest of the text after the matched prefix. -/
def ciPfxRest (pat s : Str) : Option Str :=
  match pat, s with
  | [], rest => some rest
  | _ :: _, [] => none
  | p :: ps, c :: cs => if p.toLower = c.toLower then ciPfxRest ps cs else none

/-- Whether `pat` is a case-insensitive prefix of `s`. -/
def ciIsPfx (pat s : Str) : Bool := (ciPfxRest pat s).isSome

/-- Scanner for `re.sub(r'[ \t]+', ' ', text)`: each run of spaces and tabs
becomes a single space.  `inRun` records whether the previous character
belonged to a run whose single space was already emitted. -/
def collapseSpacesGo (inRun : Bool) : Str → Str
  | [] => []
  | c :: cs =>
    if c = ' ' ∨ c = tabChar then
      if inRun then collapseSpacesGo true cs else ' ' :: collapseSpacesGo true cs
    else
      c :: collapseSpacesGo false cs

/-- `re.sub(r'[ \t]+', ' ', text)`. -/
def collapseSpaces (s : Str) : Str := collapseSpacesGo false s

/-- Scanner for `re.sub(r'\n{3,}', '\n\n', text)`: each maximal run of three
or more newlines becomes two.  `n` counts the pending newlines of the
current run, emitted once the run's extent is known. -/
def collapseNewlinesGo : Nat → Str → Str
  | n, [] => List.replicate (if 3 ≤ n then 2 else n) nlChar
  | n, c :: cs =>
    if c = nlChar then collapseNewlinesGo (n + 1) cs
    else List.replicate (if 3 ≤ n then 2 else n) nlChar ++ c :: collapseNewlinesGo 0 cs

/-- `re.sub(r'\n{3,}', '\n\n', text)`. -/
def collapseNewlines (s : Str) : Str := collapseNewlinesGo 0 s

/-- Index (from the front) of the last occurrence of `c` in `l`, if any. -/
def lastIdxOf (c : Char) (l : Str) : Option Nat :=
  match l.reverse.findIdx? (fun d => d = c) with
  | none => none
  | some e => some (l.length - 1 - e)

/-- Length of the match of `re` pattern `\n\s*\d+\s*\n` at the head of `s`,
if it matches there.  The trailing `\s*\n` matches greedily with
backtracking: the match ends just after the last newline of the whitespace
run that follows the digits. -/
def matchPageNum (s : Str) : Option Nat :=
  match s with
  | [] => none
  | c :: rest =>
    if c = nlChar then
      let w1 := rest.takeWhile isPySpace
      let r1 := rest.dropWhile isPySpace
      let ds := r1.takeWhile isDigitA
      if ds = [] then none
      else
        let r2 := r1.dropWhile isDigitA
        let w2 := r2.takeWhile isPySpace
        match lastIdxOf nlChar w2 with
        | none => none
        | some k => some (1 + w1.length + ds.length + k + 1)
    else none

/-- Scanner for `re.sub(r'\n\s*\d+\s*\n', '\n', text)`: each match is
replaced by a single newline, and scanning resumes after the match (so the
newline that ended one match is consumed and cannot open the next).  `skip`
counts the remaining characters of a replaced match. -/
def removePageNumsGo : Nat → Str → Str
  | _, [] => []
  | k + 1, _ :: cs => removePageNumsGo k cs
  | 0, c :: cs =>
    match matchPageNum (c :: cs) with
    | some len => nlChar :: removePageNumsGo (len - 1) cs
    | none => c :: removePageNumsGo 0 cs

/-- `re.sub(r'\n\s*\d+\s*\n', '\n', text)`. -/
def removePageNums (s : Str) : Str := removePageNumsGo 0 s

/-- Scanner for `re.sub('Table of Contents', '', text, flags=re.IGNORECASE)`
with a literal pattern: delete each case-insensitive occurrence, scanning
left to right.  `skip` counts the remaining characters of a deleted
occurrence. -/
def removeCIGo (pat : Str) : Nat → Str → Str
  | _, [] => []
  | k + 1, _ :: cs => removeCIGo pat k cs
  | 0, c :: cs =>
    if pat ≠ [] ∧ ciIsPfx pat (c :: cs) then
      removeCIGo pat (pat.length - 1) cs
    else
      c :: removeCIGo pat 0 cs

/-- `re.sub` with a literal pattern, `re.IGNORECASE` and empty replacement. -/
def removeCI (pat : Str) (s : Str) : Str := removeCIGo pat 0 s

/-- The first argument of the `str.replace` on line 155 of
`src/data/parser.py`.  In the checked-in source the curly-quote literals
were mangled to ASCII, so that line parses as a single `replace` whose
pattern is the triple-quoted string  `, "'").replace(`  and whose
replacement is an apostrophe. -/
def mangledQuotePat : Str :=
  [',', ' ', dq, apos, dq, ')', '.', 'r', 'e', 'p', 'l', 'a', 'c', 'e', '(']

/-- `SEC10KParser._clean_text`: whitespace collapsing, page-number and
"Table of Contents" removal, the (mangled) quote normalization, dash
normalization, and a final strip. -/
def cleanText (t : Str) : Str :=
  let t1 := collapseSpaces t
  let t2 := collapseNewlines t1
  let t3 := removePageNums t2
  let t4 := removeCI (str "Table of Contents") t3
  let t5 := pyReplace [dq] [dq] t4
  let t6 := pyReplace mangledQuotePat [apos] t5
  let t7 := pyReplace [enDash] ['-'] (pyReplace [emDash] ['-'] t6)
  pyStrip t7

/-- `SEC10KParser.SECTIONS`, in the dictionary's insertion order. -/
def SECTIONS : List (Str × Str) :=
  [ (str "1", str "Business"),
    (str "1A", str "Risk Factors"),
    (str "1B", str "Unresolved Staff Comments"),
    (str "1C", str "Cybersecurity"),
    (str "2", str "Properties"),
    (str "3", str "Legal Proceedings"),
    (str "4", str "Mine Safety Disclosures"),
    (str "5", str "Market for Registrant's Common Equity"),
    (str "6", str "Selected Financial Data"),
    (str "7", str "Management's Discussion and Analysis"),
    (str "7A", str "Quantitative and Qualitative Disclosures About Market Risk"),
    (str "8", str "Financial Statements and Supplementary Data"),
    (str "9", str "Changes in and Disagreements With Accountants"),
    (str "9A", str "Controls and Procedures"),
    (str "9B", str "Other Information"),
    (str "9C", str "Disclosure Regarding Foreign Jurisdictions") ]

/-- The punctuation class `[\.\s\-:\—]` of the section-header patterns:
period, whitespace, hyphen, colon and em dash. -/
def isPunctCls (c : Char) : Bool :=
  c = '.' || isPySpace c || c = '-' || c = ':' || c = emDash

/-- Length of the match of the section-header pattern
`(?:ITEM|Item)\s*{num}[\.\s\-:\—]*(?:{title})?` (compiled with
`re.IGNORECASE`) at the head of `s`, if it matches there.  Under
`IGNORECASE` the alternation is a case-insensitive `item`; `\s*` and the
punctuation class match greedily, and since neither the item number (which
starts with a digit) nor the title (which starts with a letter) can begin
with a character of the preceding class, greedy matching needs no
backtracking. -/
def matchLen (num title : Str) (s : Str) : Option Nat :=
  match ciPfxRest (str "item") s with
  | none => none
  | some s1 =>
    let nws := (s1.takeWhile isPySpace).length
    let s2 := s1.dropWhile isPySpace
    match ciPfxRest num s2 with
    | none => none
    | some s3 =>
      let np := (s3.takeWhile isPunctCls).length
      let s4 := s3.dropWhile isPunctCls
      let nt := if ciIsPfx title s4 then title.length else 0
      some (4 + nws + num.length + np + nt)

/-- Scanner for `pattern.finditer(text)` with a section-header pattern: the
leftmost non-overlapping matches as (start, end) offset pairs.  `i` is the
offset of the head of the remaining text and `skip` counts the remaining
characters of the match last emitted (the scan resumes at its end). -/
def findGo (num title : Str) : Nat → Str → Nat → List (Nat × Nat)
  | _, [], _ => []
  | k + 1, _ :: cs, i => findGo num title k cs (i + 1)
  | 0, c :: cs, i =>
    match matchLen num title (c :: cs) with
    | some len => (i, i + len) :: findGo num title (len - 1) cs (i + 1)
    | none => findGo num title 0 cs (i + 1)

/-- `pattern.finditer(text)` for a section-header pattern. -/
def findMatches (num title : Str) (t : Str) : List (Nat × Nat) :=
  findGo num title 0 t 0

/-- One entry of `section_positions` in `SEC10KParser.parse_filing`. -/
structure SectionPos where
  start : Nat
  itemNum : Str
  header : Str
  itemTitle : Str
deriving DecidableEq

/-- Python `t[a:b]` for `0 ≤ a ≤ b` (clamped at the end of the text). -/
def slice (t : Str) (a b : Nat) : Str := (t.drop a).take (b - a)

/-- The `section_positions` entries contributed by one `SECTIONS` item. -/
def sectionPositionsFor (t : Str) (p : Str × Str) : List SectionPos :=
  (findMatches p.1 p.2 t).map
    (fun m => { start := m.1, itemNum := p.1, header := slice t m.1 m.2, itemTitle := p.2 })

/-- All of `section_positions`, built in the `SECTIONS` dictionary order
(the order the stable sort preserves for equal start offsets). -/
def allPositions (t : Str) : List SectionPos :=
  SECTIONS.flatMap (sectionPositionsFor t)

/-- Insertion step of the stable sort by start offset: an element is placed
after every earlier element whose start is strictly smaller, and before
earlier-inserted elements with an equal start never — matching the
stability of Python's `list.sort`. -/
def insertPos (x : SectionPos) : List SectionPos → List SectionPos
  | [] => [x]
  | y :: ys => if y.start < x.start then y :: insertPos x ys else x :: y :: ys

/-- The stable sort of `section_positions` by start offset
(`section_positions.sort(key=lambda x: x['start'])`). -/
def sortPositions : List SectionPos → List SectionPos
  | [] => []
  | x :: xs => insertPos x (sortPositions xs)

/-- The duplicate-removal loop of `parse_filing`: keep the first entry for
each item number, in order (`seen_sections` / `unique_positions`). -/
def dedupPositions : List SectionPos → List Str → List SectionPos
  | [], _ => []
  | p :: ps, seen =>
    if p.itemNum ∈ seen then dedupPositions ps seen
    else p :: dedupPositions ps (p.itemNum :: seen)

/-- `parser.DocumentSection`. -/
structure DocumentSection where
  item_number : Str
  item_title : Str
  content : Str
  start_idx : Nat
  end_idx : Nat
deriving DecidableEq

/-- The end offset of the section whose retained match is followed by the
retained matches `ps`: the next match's start, or the end of the text. -/
def nextEnd (t : Str) : List SectionPos → Nat
  | [] => t.length
  | q :: _ => q.start

/-- The extraction loop of `parse_filing`: each retained match's section
runs to the next retained match's start (or the end of the text), its
content is the stripped slice, and only sections whose content exceeds 500
characters are kept.  The result models the insertion-ordered `sections`
dictionary as an association list. -/
def extractSections (t : Str) : List SectionPos → List (Str × DocumentSection)
  | [] => []
  | p :: ps =>
    (if 500 < (pyStrip (slice t p.start (nextEnd t ps))).length then
      [(p.itemNum, ⟨p.itemNum, p.itemTitle, pyStrip (slice t p.start (nextEnd t ps)),
        p.start, nextEnd t ps⟩)]
     else []) ++ extractSections t ps

/-- `SEC10KParser.parse_filing`: clean the text, find all header matches,
sort them by position, drop duplicate item numbers and extract the
sections. -/
def parse_filing (raw : Str) : List (Str × DocumentSection) :=
  let t := cleanText raw
  extractSections t (dedupPositions (sortPositions (allPositions t)) [])

/-! ### The RAG chain (`src/rag/chain.py`) -/

/-- `MAX_QUESTION_LENGTH` from `src/rag/chain.py`. -/
def MAX_QUESTION_LENGTH : Nat := 2000

/-- ASCII uppercase letter (the class `[A-Z]`). -/
def isUpperA (c : Char) : Bool := 'A' ≤ c && c ≤ 'Z'

/-- Python `str.upper()` on ASCII text. -/
def pyUpper (s : Str) : Str := s.map Char.toUpper

/-- The anchored part of `TICKER_PATTERN = re.compile(r"^[A-Z]{1,5}$")`:
one to five uppercase ASCII letters. -/
def tickerCore (s : Str) : Bool :=
  decide (1 ≤ s.length) && decide (s.length ≤ 5) && s.all isUpperA

/-- `TICKER_PATTERN.match(s)` succeeding: Python's `$` also matches just
before a newline that ends the string, so that case is included (it is
unreachable after `strip()`, but belongs to the pattern's semantics). -/
def tickerMatch (s : Str) : Bool :=
  tickerCore s ||
    (match s.getLast? with
     | some c => c = nlChar && tickerCore s.dropLast
     | none => false)

/-- `SECFilingRAG._validate_ticker`: `None` passes through; otherwise the
ticker is stripped and uppercased and must match `TICKER_PATTERN`, else a
`ValueError` is raised (modelled as `Except.error` with the message). -/
def validate_ticker : Option Str → Except Str (Option Str)
  | none => Except.ok none
  | some t =>
    let t2 := pyUpper (pyStrip t)
    if tickerMatch t2 then Except.ok (some t2)
    else Except.error (str "Invalid ticker format: " ++ t2 ++
      str ". Expected 1-5 uppercase letters.")

/-- `SECFilingRAG._validate_question`: empty or whitespace-only questions
are rejected, the question is stripped, and the stripped question must not
exceed `MAX_QUESTION_LENGTH` characters. -/
def validate_question (q : Str) : Except Str Str :=
  if q = [] ∨ pyStrip q = [] then Except.error (str "Question cannot be empty")
  else
    let q2 := pyStrip q
    if MAX_QUESTION_LENGTH < q2.length then
      Except.error (str "Question too long. Maximum 2000 characters allowed.")
    else Except.ok q2

/-- A retrieved LangChain `Document` as `SECFilingRAG` reads it: its page
content and the metadata keys accessed through `metadata.get` (absent keys
read as `None`, hence `Option`). -/
structure RagDoc where
  page_content : Str
  ticker : Option Str
  company_name : Option Str
  filing_date : Option Str
  item_number : Option Str
  item_title : Option Str
deriving DecidableEq

/-- The `source_key` tuple of `_format_sources`. -/
def sourceKey (d : RagDoc) : Option Str × Option Str × Option Str :=
  (d.ticker, d.filing_date, d.item_number)

/-- One entry of the list `_format_sources` returns. -/
structure Citation where
  ticker : Option Str
  company : Option Str
  filing_date : Option Str
  sectionName : Option Str
  excerpt : Str
deriving DecidableEq

/-- The `excerpt` field: the first 200 characters plus an ellipsis when the
content is longer than 200 characters, the whole content otherwise. -/
def excerptOf (d : RagDoc) : Str :=
  if 200 < d.page_content.length then d.page_content.take 200 ++ str "..."
  else d.page_content

/-- The citation built from one retrieved document. -/
def mkCitation (d : RagDoc) : Citation :=
  ⟨d.ticker, d.company_name, d.filing_date, d.item_title, excerptOf d⟩

/-- The loop of `SECFilingRAG._format_sources`: `seen` is the set of source
keys already emitted; a document whose key was seen contributes nothing. -/
def formatSourcesGo (seen : List (Option Str × Option Str × Option Str)) :
    List RagDoc → List Citation
  | [] => []
  | d :: ds =>
    if sourceKey d ∈ seen then formatSourcesGo seen ds
    else mkCitation d :: formatSourcesGo (sourceKey d :: seen) ds

/-- `SECFilingRAG._format_sources`. -/
def format_sources (docs : List RagDoc) : List Citation := formatSourcesGo [] docs

/-- The result dictionary of `SECFilingRAG.query`. -/
structure QueryResult where
  answer : Str
  sources : List Citation
  num_sources : Nat
deriving DecidableEq

/-- The fixed fallback answer substituted when LLM generation raises. -/
def fallbackAnswer : Str :=
  str "I encountered an error generating a response. Please try again."

/-- `SECFilingRAG.query`, with its two external collaborators abstracted:
`docs` is what `retriever.invoke(question)` returned, and `gen` is the
outcome of `self.llm.invoke(prompt)` (`none` when the call raised, in which
case the `except` branch substitutes `fallbackAnswer`).  The function
validates the question and ticker (a `ValueError` propagates as
`Except.error`), formats the sources, appends the question/answer pair to
the chat history and returns the updated history with the result. -/
def query (history : List (Str × Str)) (question : Str) (filter_ticker : Option Str)
    (docs : List RagDoc) (gen : Option Str) :
    Except Str (List (Str × Str) × QueryResult) := do
  let q ← validate_question question
  let _t ← validate_ticker filter_ticker
  let answer := match gen with | some a => a | none => fallbackAnswer
  let sources := format_sources docs
  Except.ok (history ++ [(q, answer)], ⟨answer, sources, docs.length⟩)

/-! ### The document chunker (`src/data/preprocessor.py`) -/

/-- `DocumentChunker`'s two configuration fields. -/
structure Chunker where
  chunk_size : Nat
  chunk_overlap : Nat
deriving DecidableEq

/-- `settings.CHUNK_SIZE`'s default value. -/
def defaultChunkSize : Nat := 1500

/-- `settings.CHUNK_OVERLAP`'s default value. -/
def defaultChunkOverlap : Nat := 300

/-- `DocumentChunker.__init__`: `chunk_size or settings.CHUNK_SIZE` — a
missing or falsy (zero) argument falls back to the configured default. -/
def mkChunker (cs co : Option Nat) : Chunker :=
  ⟨(match cs with | some n => if n = 0 then defaultChunkSize else n | none => defaultChunkSize),
   (match co with | some n => if n = 0 then defaultChunkOverlap else n | none => defaultChunkOverlap)⟩

/-- The separator priority list of `DocumentChunker.__init__` (the final
empty separator is the character-level fallback, handled structurally in
`splitRec`). -/
def separators : List Str :=
  [str "\n\n", str "\n", str ". ", str "! ", str "? ", str "; ", str ", ", str " "]

/-- Whether `sub` occurs as a contiguous substring of `s`. -/
def containsSub (s sub : Str) : Bool :=
  match s with
  | [] => sub.isEmpty
  | _ :: cs => sub.isPrefixOf s || containsSub cs sub

/-- Modelled from the spec: the scanner of the character-level fallback of
the recursive splitter (the empty-string separator).  Chunks of `size`
characters start every `step = size - overlap` positions, so `overlap`
characters of each chunk are carried into the next; the final chunk is the
remaining text once it fits the budget.  `k` counts positions to skip
before the next chunk starts. -/
def charChunksGo (size step : Nat) : Nat → Str → List Str
  | _, [] => []
  | k + 1, _ :: cs => charChunksGo size step k cs
  | 0, c :: cs =>
    if (c :: cs).length ≤ size then [c :: cs]
    else (c :: cs).take size :: charChunksGo size step (step - 1) cs

/-- Character-level fallback chunks: a text within the size budget is a
single chunk; a degenerate zero stride (overlap at least the size, which
the third-party splitter rejects at construction) leaves the text
unsplit. -/
def charChunks (size step : Nat) (s : Str) : List Str :=
  if s.length ≤ size ∨ step = 0 then [s] else charChunksGo size step 0 s

/-- Split `s` at each non-overlapping occurrence of the non-empty separator
`sep`, scanning left to right; the separator is consumed.  `skip` counts
remaining characters of a consumed separator occurrence. -/
def splitOnSepGo (sep : Str) : Nat → Str → List Str
  | _, [] => [[]]
  | k + 1, _ :: cs => splitOnSepGo sep k cs
  | 0, c :: cs =>
    if sep ≠ [] ∧ sep.isPrefixOf (c :: cs) then
      [] :: splitOnSepGo sep (sep.length - 1) cs
    else
      match splitOnSepGo sep 0 cs with
      | [] => [[c]]
      | h :: t => (c :: h) :: t

/-- Split at every occurrence of `sep`. -/
def splitOnSep (sep : Str) (s : Str) : List Str := splitOnSepGo sep 0 s

/-- Modelled from the spec: the merge step of the recursive splitter —
adjacent pieces are merged (re-joined with the separator that split them)
while the merge stays within the size budget; when a chunk must be closed,
the last `overlap` characters are carried into the next chunk, which may
therefore exceed the budget by a bounded overlap tolerance.  A piece that
alone exceeds the budget is emitted on its own, to be split more finely by
the caller. -/
def mergeGo (size overlap : Nat) (sep : Str) : Str → List Str → List Str
  | acc, [] => if acc = [] then [] else [acc]
  | acc, p :: ps =>
    if acc = [] then
      if p.length ≤ size then mergeGo size overlap sep p ps
      else p :: mergeGo size overlap sep [] ps
    else
      if (acc ++ sep ++ p).length ≤ size then
        mergeGo size overlap sep (acc ++ sep ++ p) ps
      else
        acc :: mergeGo size overlap sep ((acc.drop (acc.length - overlap)) ++ sep ++ p) ps

/-- Modelled from the spec: the recursive split of
`RecursiveCharacterTextSplitter.split_text` as §4.2 of the specification
describes it — try the separators in priority order; a text within the size
budget is one chunk; the first separator that occurs in the text splits it,
small pieces are merged back within the budget with overlap carry, and
oversized pieces are split recursively with the remaining separators; when
no separator remains, fall back to character-level chunks. -/
def splitRec (size overlap : Nat) : List Str → Str → List Str
  | [], s => charChunks size (size - overlap) s
  | sep :: rest, s =>
    if s.length ≤ size then [s]
    else if containsSub s sep then
      (mergeGo size overlap sep [] (splitOnSep sep s)).flatMap
        (fun ch => if size < ch.length then splitRec size overlap rest ch else [ch])
    else splitRec size overlap rest s

/-- Modelled from the spec: `text_splitter.split_text` — empty input yields
no chunks, otherwise the recursive split runs over the separator priority
list. -/
def split_text (ch : Chunker) (s : Str) : List Str :=
  if s = [] then [] else splitRec ch.chunk_size ch.chunk_overlap separators s

/-! ### MD5 (`hashlib.md5`), as `_generate_chunk_id` uses it

The standard MD5 of RFC 1321, on byte lists, with 32-bit words embedded as
naturals reduced modulo `2 ^ 32`. -/

/-- The per-round shift amounts of MD5. -/
def md5S : List Nat :=
  [7, 12, 17, 22, 7, 12, 17, 22, 7, 12, 17, 22, 7, 12, 17, 22,
   5, 9, 14, 20, 5, 9, 14, 20, 5, 9, 14, 20, 5, 9, 14, 20,
   4, 11, 16, 23, 4, 11, 16, 23, 4, 11, 16, 23, 4, 11, 16, 23,
   6, 10, 15, 21, 6, 10, 15, 21, 6, 10, 15, 21, 6, 10, 15, 21]

/-- The sine-derived round constants of MD5. -/
def md5K : List Nat :=
  [0xd76aa478, 0xe8c7b756, 0x242070db, 0xc1bdceee,
   0xf57c0faf, 0x4787c62a, 0xa8304613, 0xfd469501,
   0x698098d8, 0x8b44f7af, 0xffff5bb1, 0x895cd7be,
   0x6b901122, 0xfd987193, 0xa679438e, 0x49b40821,
   0xf61e2562, 0xc040b340, 0x265e5a51, 0xe9b6c7aa,
   0xd62f105d, 0x02441453, 0xd8a1e681, 0xe7d3fbc8,
   0x21e1cde6, 0xc33707d6, 0xf4d50d87, 0x455a14ed,
   0xa9e3e905, 0xfcefa3f8, 0x676f02d9, 0x8d2a4c8a,
   0xfffa3942, 0x8771f681, 0x6d9d6122, 0xfde5380c,
   0xa4beea44, 0x4bdecfa9, 0xf6bb4b60, 0xbebfbc70,
   0x289b7ec6, 0xeaa127fa, 0xd4ef3085, 0x04881d05,
   0xd9d4d039, 0xe6db99e5, 0x1fa27cf8, 0xc4ac5665,
   0xf4292244, 0x432aff97, 0xab9423a7, 0xfc93a039,
   0x655b59c3, 0x8f0ccc92, 0xffeff47d, 0x85845dd1,
   0x6fa87e4f, 0xfe2ce6e0, 0xa3014314, 0x4e0811a1,
   0xf7537e82, 0xbd3af235, 0x2ad7d2bb, 0xeb86d391]

/-- 32-bit left rotation of a word below `2 ^ 32`. -/
def rotl32 (x n : Nat) : Nat := ((x <<< n) % 2 ^ 32) ||| (x >>> (32 - n))

/-- `k` bytes of `n`, little-endian. -/
def leBytes : Nat → Nat → List Nat
  | 0, _ => []
  | k + 1, n => n % 256 :: leBytes k (n / 256)

/-- The 16 little-endian 32-bit words of one 64-byte block. -/
def toWords : List Nat → List Nat
  | b0 :: b1 :: b2 :: b3 :: rest =>
    (b0 + 256 * b1 + 65536 * b2 + 16777216 * b3) :: toWords rest
  | _ => []

/-- MD5 padding: append `0x80`, zero-pad to 56 mod 64 bytes, then the bit
length as 8 little-endian bytes. -/
def padMsg (msg : List Nat) : List Nat :=
  msg ++ [0x80] ++ List.replicate ((120 - (msg.length + 1) % 64) % 64) 0 ++
    leBytes 8 ((8 * msg.length) % 2 ^ 64)

/-- One MD5 round applied to the state `(a, b, c, d)`; `i` is the round
index and `M` the block's words. -/
def md5Step (M : List Nat) (st : Nat × Nat × Nat × Nat) (i : Nat) :
    Nat × Nat × Nat × Nat :=
  let a := st.1
  let b := st.2.1
  let c := st.2.2.1
  let d := st.2.2.2
  let fg : Nat × Nat :=
    if i < 16 then ((b &&& c) ||| ((0xffffffff ^^^ b) &&& d), i)
    else if i < 32 then ((d &&& b) ||| ((0xffffffff ^^^ d) &&& c), (5 * i + 1) % 16)
    else if i < 48 then (b ^^^ c ^^^ d, (3 * i + 5) % 16)
    else (c ^^^ (b ||| (0xffffffff ^^^ d)), (7 * i) % 16)
  let f2 := (fg.1 + a + md5K.getD i 0 + M.getD fg.2 0) % 2 ^ 32
  (d, (b + rotl32 f2 (md5S.getD i 0)) % 2 ^ 32, b, c)

/-- One 64-byte block folded into the MD5 state. -/
def md5Block (st : Nat × Nat × Nat × Nat) (block : List Nat) :
    Nat × Nat × Nat × Nat :=
  let M := toWords block
  let r := (List.range 64).foldl (md5Step M) st
  ((st.1 + r.1) % 2 ^ 32, (st.2.1 + r.2.1) % 2 ^ 32,
   (st.2.2.1 + r.2.2.1) % 2 ^ 32, (st.2.2.2 + r.2.2.2) % 2 ^ 32)

/-- Fold every complete 64-byte block of the message into the state; `acc`
collects the bytes of the block being read.  A padded MD5 message is a
multiple of 64 bytes, so no incomplete block remains at the end. -/
def md5ProcessGo (st : Nat × Nat × Nat × Nat) (acc : List Nat) :
    List Nat → Nat × Nat × Nat × Nat
  | [] => st
  | b :: bs =>
    if acc.length = 63 then md5ProcessGo (md5Block st (acc ++ [b])) [] bs
    else md5ProcessGo st (acc ++ [b]) bs

/-- Fold every 64-byte block of the padded message into the state. -/
def md5Process (st : Nat × Nat × Nat × Nat) (bytes : List Nat) :
    Nat × Nat × Nat × Nat :=
  md5ProcessGo st [] bytes

/-- The MD5 initial state. -/
def md5Init : Nat × Nat × Nat × Nat := (0x67452301, 0xefcdab89, 0x98badcfe, 0x10325476)

/-- The 16-byte MD5 digest of a byte list. -/
def md5Digest (msg : List Nat) : List Nat :=
  let r := md5Process md5Init (padMsg msg)
  leBytes 4 r.1 ++ leBytes 4 r.2.1 ++ leBytes 4 r.2.2.1 ++ leBytes 4 r.2.2.2

/-- Lowercase hexadecimal digit. -/
def hexDigitChar (n : Nat) : Char :=
  if n < 10 then Char.ofNat (48 + n) else Char.ofNat (87 + n)

/-- Two lowercase hexadecimal digits of one byte. -/
def byteHex (b : Nat) : Str := [hexDigitChar (b / 16), hexDigitChar (b % 16)]

/-- Python `hashlib.md5(...).hexdigest()`: the digest bytes in order, two
lowercase hexadecimal digits each. -/
def hexdigest (bytes : List Nat) : Str := bytes.flatMap byteHex

/-- UTF-8 encoding of an ASCII string (every string hashed by the chunker
is ASCII). -/
def strToBytes (s : Str) : List Nat := s.map Char.toNat

/-- Python `str(n)` for a natural `n`. -/
def natToStr (n : Nat) : Str := (Nat.repr n).data

/-- `DocumentChunker._generate_chunk_id`: the first 12 hexadecimal digits
of the MD5 of `f"{ticker}_{item_number}_{chunk_index}"`. -/
def generate_chunk_id (ticker item_number : Str) (chunk_index : Nat) : Str :=
  (hexdigest (md5Digest (strToBytes
    (ticker ++ ['_'] ++ item_number ++ ['_'] ++ natToStr chunk_index)))).take 12

/-- The metadata dictionary handed to `chunk_section`, as it reads it: the
two keys accessed via `metadata.get` (absent reads as `None`), plus the
remaining entries it spreads unchanged into each chunk's metadata. -/
structure ChunkMeta where
  ticker : Option Str
  item_number : Option Str
  rest : List (Str × Str)
deriving DecidableEq

/-- One LangChain `Document` as `chunk_section` builds it: the chunk text
plus the spread metadata and the four added keys. -/
structure ChunkDoc where
  page_content : Str
  meta : ChunkMeta
  chunk_index : Nat
  chunk_id : Str
  total_chunks : Nat
  chunk_size : Nat
deriving DecidableEq

/-- The enumeration loop of `chunk_section`: each chunk, in order, gets its
index, its id from `(ticker, item_number, index)` (with the `'UNK'` and
`'0'` defaults of `metadata.get`), the total chunk count and its own
length. -/
def chunkDocsGo (md : ChunkMeta) (total : Nat) (i : Nat) : List Str → List ChunkDoc
  | [] => []
  | ch :: chs =>
    { page_content := ch,
      meta := md,
      chunk_index := i,
      chunk_id := generate_chunk_id (md.ticker.getD (str "UNK"))
        (md.item_number.getD (str "0")) i,
      total_chunks := total,
      chunk_size := ch.length } :: chunkDocsGo md total (i + 1) chs

/-- `DocumentChunker.chunk_section`: split the content and wrap each chunk
as a document. -/
def chunk_section (c : Chunker) (content : Str) (md : ChunkMeta) : List ChunkDoc :=
  let chunks := split_text c content
  chunkDocsGo md chunks.length 0 chunks

/-- A concrete retrieved passage used by the witnesses below. -/
def docA : RagDoc :=
  ⟨str "Apple faces supply risks.", some (str "AAPL"), some (str "Apple Inc."),
   some (str "2025-01-15"), some (str "1A"), some (str "Risk Factors")⟩

/-! ## Helper lemmas -/

/-- The head of `dropWhile p` does not satisfy `p`. -/
theorem dropWhile_head?_not (p : Char → Bool) (l : Str) (c : Char)
    (h : (l.dropWhile p).head? = some c) : p c = false := by
  induction l with
  | nil => simp [List.dropWhile] at h
  | cons a as ih =>
    simp only [List.dropWhile] at h
    by_cases hp : p a
    · rw [hp] at h
      exact ih h
    · rw [Bool.not_eq_true] at hp
      rw [hp] at h
      simp at h
      subst h
      simpa using hp

/-- The last character of a stripped string is not whitespace. -/
theorem pyStrip_getLast?_not_space (s : Str) (c : Char)
    (h : (pyStrip s).getLast? = some c) : isPySpace c = false := by
  unfold pyStrip at h
  rw [List.getLast?_reverse] at h
  exact dropWhile_head?_not _ _ _ h

/-- `Char.ofNat` at a valid code point evaluates back to it. -/
theorem char_toNat_ofNat (n : Nat) (h : n.isValidChar) : (Char.ofNat n).toNat = n := by
  unfold Char.ofNat
  rw [dif_pos h]
  rfl

/-- Only the newline uppercases to a newline. -/
theorem toUpper_eq_nl (c : Char) (h : Char.toUpper c = nlChar) : c = nlChar := by
  unfold Char.toUpper at h
  simp only [] at h
  by_cases hc : c.toNat ≥ 97 ∧ c.toNat ≤ 122
  · rw [if_pos hc] at h
    exfalso
    have hv : (c.toNat - 32).isValidChar := by
      left
      omega
    have h2 : (Char.ofNat (c.toNat - 32)).toNat = c.toNat - 32 := char_toNat_ofNat _ hv
    rw [h] at h2
    have h3 : (nlChar).toNat = 10 := by decide
    omega
  · rwa [if_neg hc] at h

/-- After stripping and uppercasing, the newline special case of
`TICKER_PATTERN`'s `$` cannot arise: the full match test coincides with the
one-to-five-uppercase-letters test. -/
theorem tickerMatch_eq_core (s : Str) :
    tickerMatch (pyUpper (pyStrip s)) = tickerCore (pyUpper (pyStrip s)) := by
  unfold tickerMatch
  cases h : (pyUpper (pyStrip s)).getLast? with
  | none => simp
  | some c =>
    have hmap : (pyStrip s).getLast?.map Char.toUpper = some c := by
      rw [← List.getLast?_map]
      exact h
    cases h2 : (pyStrip s).getLast? with
    | none => rw [h2] at hmap; simp at hmap
    | some c0 =>
      rw [h2] at hmap
      simp at hmap
      have hns : isPySpace c0 = false := pyStrip_getLast?_not_space s c0 h2
      have hcnl : ¬ (c = nlChar) := by
        intro hcn
        rw [hcn] at hmap
        have : c0 = nlChar := toUpper_eq_nl c0 hmap
        rw [this] at hns
        simp [isPySpace] at hns
      have : (c = nlChar : Bool) = false := by
        simpa using hcnl
      simp [this]

/-- `Except.isOk` on a success. -/
theorem isOk_ok {ε α : Type} (a : α) : (Except.ok a : Except ε α).isOk = true := rfl

/-- `Except.isOk` on a failure. -/
theorem isOk_error {ε α : Type} (e : ε) : (Except.error e : Except ε α).isOk = false := rfl

/-! ## Claim C2 — ticker filter validation -/

/-- Counterexample to claim C2: the claim accepts a present-but-empty
ticker filter (empty after trimming and uppercasing), but
`_validate_ticker` raises for it, because the empty string does not match
`TICKER_PATTERN`. -/
theorem c2_empty_ticker_rejected :
    (validate_ticker (some [])).isOk = false ∧ pyUpper (pyStrip []) = [] := by
  constructor
  · decide
  · rfl

/-- Claim C2 as amended: validation raises exactly when the filter is
present and, after trimming and uppercasing, is not a string of one to five
uppercase ASCII letters — so a present empty filter is rejected, not
accepted; an absent filter passes; `"aapl"` normalizes to `"AAPL"`;
`"TOOLONGTICKER"` and `"12AB"` are rejected. -/
theorem c2_ticker_validation :
    (∀ s : Str, (validate_ticker (some s)).isOk = false ↔
      tickerCore (pyUpper (pyStrip s)) = false)
    ∧ validate_ticker none = Except.ok none
    ∧ validate_ticker (some (str "aapl")) = Except.ok (some (str "AAPL"))
    ∧ (validate_ticker (some (str "TOOLONGTICKER"))).isOk = false
    ∧ (validate_ticker (some (str "12AB"))).isOk = false := by
  refine ⟨?_, by decide, by decide, by decide, by decide⟩
  intro s
  have hm := tickerMatch_eq_core s
  unfold validate_ticker
  simp only []
  rw [hm]
  by_cases h : tickerCore (pyUpper (pyStrip s)) = true
  · simp [h, isOk_ok]
  · rw [Bool.not_eq_true] at h
    simp [h, isOk_error]

/-! ## Claim C8 — question validation in `answer()` -/

/-- `dropWhile` does nothing when every element fails the predicate. -/
theorem dropWhile_all_false (p : Char → Bool) (l : Str)
    (h : ∀ c ∈ l, p c = false) : l.dropWhile p = l := by
  cases l with
  | nil => rfl
  | cons c cs =>
    rw [List.dropWhile_cons, h c (List.mem_cons_self c cs)]
    simp

/-- Stripping text with no whitespace at all is the identity. -/
theorem pyStrip_all_nonspace (l : Str) (h : ∀ c ∈ l, isPySpace c = false) :
    pyStrip l = l := by
  unfold pyStrip
  rw [dropWhile_all_false _ _ h, dropWhile_all_false, List.reverse_reverse]
  intro c hc
  exact h c (List.mem_reverse.mp hc)

/-- Stripping whitespace-free text followed by one space removes exactly
the space. -/
theorem pyStrip_append_space (l : Str) (hne : l ≠ [])
    (h : ∀ c ∈ l, isPySpace c = false) : pyStrip (l ++ [' ']) = l := by
  unfold pyStrip
  have hd : (l ++ [' ']).dropWhile isPySpace = l ++ [' '] := by
    cases l with
    | nil => exact absurd rfl hne
    | cons c cs =>
      rw [List.cons_append, List.dropWhile_cons, h c (List.mem_cons_self c cs)]
      simp
  have hsp : isPySpace ' ' = true := rfl
  rw [hd, List.reverse_append, List.reverse_singleton, List.singleton_append,
    List.dropWhile_cons, hsp]
  simp only [if_true]
  rw [dropWhile_all_false _ _ (fun d hd2 => h d (List.mem_reverse.mp hd2)),
    List.reverse_reverse]

/-- Every character of a replicated letter list fails `isPySpace`. -/
theorem replicate_a_nonspace (n : Nat) :
    ∀ c ∈ List.replicate n 'a', isPySpace c = false := by
  intro c hc
  rw [List.eq_of_mem_replicate hc]
  rfl

/-- Counterexample to claim C8: a 2001-character question whose final
character is a space passes validation and the query succeeds, though the
claim requires `InvalidInput` for every question exceeding 2000
characters — the length check runs on the trimmed question. -/
theorem c8_overlong_question_passes :
    (List.replicate 2000 'a' ++ [' ']).length = 2001 ∧
    (query [] (List.replicate 2000 'a' ++ [' ']) none [] (some (str "ok"))).isOk = true := by
  have hrne : List.replicate 2000 'a' ≠ ([] : Str) := by
    intro hh
    have := congrArg List.length hh
    rw [List.length_replicate] at this
    simp at this
  have hstrip : pyStrip (List.replicate 2000 'a' ++ [' ']) = List.replicate 2000 'a' :=
    pyStrip_append_space _ hrne (replicate_a_nonspace 2000)
  have hq : validate_question (List.replicate 2000 'a' ++ [' ']) =
      Except.ok (List.replicate 2000 'a') := by
    unfold validate_question
    have h1 : ¬ (List.replicate 2000 'a' ++ [' '] = [] ∨
        pyStrip (List.replicate 2000 'a' ++ [' ']) = []) := by
      rw [hstrip]
      rintro (hh | hh)
      · exact absurd (List.append_eq_nil.mp hh).1 hrne
      · exact absurd hh hrne
    have h2 : ¬ (MAX_QUESTION_LENGTH < (pyStrip (List.replicate 2000 'a' ++ [' '])).length) := by
      rw [hstrip, List.length_replicate]
      simp [MAX_QUESTION_LENGTH]
    rw [if_neg h1, if_neg h2, hstrip]
  constructor
  · rw [List.length_append, List.length_replicate]
    rfl
  · unfold query
    simp only [hq, validate_ticker, Bind.bind, Except.bind, pure, Except.pure]
    rfl

/-- Claim C8 as amended: `answer()` raises `InvalidInput` exactly when the
trimmed question is empty or the trimmed question exceeds 2000 characters
(the check applies to the trimmed length, so whitespace padding does not
count); a 2000-character non-whitespace question passes. -/
theorem c8_question_validation :
    (∀ q : Str, (validate_question q).isOk = false ↔
      (pyStrip q = [] ∨ MAX_QUESTION_LENGTH < (pyStrip q).length))
    ∧ (∀ (hist : List (Str × Str)) (q : Str) (docs : List RagDoc) (gen : Option Str),
        (query hist q none docs gen).isOk = (validate_question q).isOk)
    ∧ (validate_question (List.replicate 2000 'a')).isOk = true := by
  refine ⟨?_, ?_, ?_⟩
  · intro q
    unfold validate_question
    by_cases h1 : q = [] ∨ pyStrip q = []
    · rw [if_pos h1]
      have h2 : pyStrip q = [] := by
        rcases h1 with h1 | h1
        · rw [h1]; rfl
        · exact h1
      simp [h2, isOk_error]
    · rw [if_neg h1]
      have h2 : ¬ pyStrip q = [] := fun hh => h1 (Or.inr hh)
      by_cases h3 : MAX_QUESTION_LENGTH < (pyStrip q).length
      · simp [h3, isOk_error, h2]
      · simp [h3, isOk_ok, h2]
  · intro hist q docs gen
    cases h : validate_question q with
    | error e =>
      unfold query
      simp only [h, Bind.bind, Except.bind]
      rfl
    | ok q2 =>
      unfold query
      simp only [h, validate_ticker, Bind.bind, Except.bind, pure, Except.pure]
      rfl
  · have hstrip : pyStrip (List.replicate 2000 'a') = List.replicate 2000 'a' :=
      pyStrip_all_nonspace _ (replicate_a_nonspace 2000)
    have hrne : List.replicate 2000 'a' ≠ ([] : Str) := by
      intro hh
      have := congrArg List.length hh
      rw [List.length_replicate] at this
      simp at this
    unfold validate_question
    have h1 : ¬ (List.replicate 2000 'a' = [] ∨ pyStrip (List.replicate 2000 'a') = []) := by
      rw [hstrip]
      rintro (hh | hh) <;> exact absurd hh hrne
    have h2 : ¬ (MAX_QUESTION_LENGTH < (pyStrip (List.replicate 2000 'a')).length) := by
      rw [hstrip, List.length_replicate]
      simp [MAX_QUESTION_LENGTH]
    rw [if_neg h1, if_neg h2]
    rfl

/-! ## Claim C9 — generation failure is recovered, citations kept -/

/-- Claim C9: when the question validates and generation raises (`gen =
none`), `query` does not propagate the error: it returns the fixed fallback
answer, the same citation list as the success case, and still appends the
question/answer pair to the conversation log. -/
theorem c9_generation_fallback (hist : List (Str × Str)) (q q2 : Str)
    (docs : List RagDoc) (a : Str) (h : validate_question q = Except.ok q2) :
    query hist q none docs none =
      Except.ok (hist ++ [(q2, fallbackAnswer)],
        ⟨fallbackAnswer, format_sources docs, docs.length⟩)
    ∧ query hist q none docs (some a) =
      Except.ok (hist ++ [(q2, a)], ⟨a, format_sources docs, docs.length⟩) := by
  unfold query
  simp only [h, validate_ticker, Bind.bind, Except.bind, pure, Except.pure]
  constructor <;> trivial

/-- Witness for C9 at a concrete query: generation fails, the fallback
answer is returned together with the citation of the retrieved passage, and
the log records the exchange. -/
theorem c9_generation_fallback_witness :
    query [] (str "What are the risks?") none [docA] none =
      Except.ok ([(str "What are the risks?", fallbackAnswer)],
        ⟨fallbackAnswer, format_sources [docA], 1⟩) :=
  (c9_generation_fallback [] (str "What are the risks?") (str "What are the risks?")
    [docA] (str "unused") (by decide)).1

/-! ## Claim C3 — citation deduplication -/

/-- Restatement of the claim's words, independent of `_format_sources`'s
loop: the passages that are the first occurrence of their source key, in
order — later passages sharing a key with an earlier one are removed. -/
def firstOccs : List RagDoc → List RagDoc
  | [] => []
  | d :: ds => d :: firstOccs (ds.filter (fun x => decide (sourceKey x ≠ sourceKey d)))
termination_by l => l.length
decreasing_by
  exact Nat.lt_succ_of_le (List.length_filter_le _ _)

/-- The citation list as the claim describes it: exactly one citation per
distinct source key, built from the first (highest-ranked) passage carrying
that key, in first-occurrence order. -/
def citationsSpec (docs : List RagDoc) : List Citation :=
  (firstOccs docs).map mkCitation

/-- The `_format_sources` loop computes the claim's description, relative
to an already-seen key set. -/
theorem fsGo_eq_firstOccs (docs : List RagDoc) :
    ∀ seen, formatSourcesGo seen docs =
      (firstOccs (docs.filter (fun d => decide (sourceKey d ∉ seen)))).map mkCitation := by
  induction docs with
  | nil =>
    intro seen
    simp [formatSourcesGo, firstOccs]
  | cons d ds ih =>
    intro seen
    simp only [formatSourcesGo, List.filter_cons]
    by_cases h : sourceKey d ∈ seen
    · rw [if_pos h]
      have hd : decide (sourceKey d ∉ seen) = false := by simp [h]
      rw [hd]
      simp only [Bool.false_eq_true, if_false]
      exact ih seen
    · rw [if_neg h]
      have hd : decide (sourceKey d ∉ seen) = true := by simp [h]
      rw [hd]
      simp only [if_true]
      rw [firstOccs, List.map_cons]
      congr 1
      rw [ih (sourceKey d :: seen), List.filter_filter]
      congr 1
      congr 1
      apply List.filter_congr
      intro x _
      simp only [List.mem_cons, not_or, Bool.and_comm]
      by_cases h1 : sourceKey x = sourceKey d <;> by_cases h2 : sourceKey x ∈ seen <;>
        simp [h1, h2]

/-- Claim C3: `_format_sources` returns exactly one citation per distinct
`(ticker, filing_date, item_number)` tuple occurring in the retrieved
sequence, built from the first (highest-ranked) passage carrying that
tuple, in first-occurrence order. -/
theorem c3_citation_dedup (docs : List RagDoc) :
    format_sources docs = citationsSpec docs := by
  unfold format_sources citationsSpec
  rw [fsGo_eq_firstOccs docs []]
  congr 1
  congr 1
  apply List.filter_eq_self.mpr
  intro a _
  simp

/-! ## Claim C10 — `num_sources` counts passages before deduplication -/

/-- Citations cannot outnumber the retrieved documents. -/
theorem fsGo_len_le (docs : List RagDoc) :
    ∀ seen, (formatSourcesGo seen docs).length ≤ docs.length := by
  induction docs with
  | nil => intro seen; simp [formatSourcesGo]
  | cons d ds ih =>
    intro seen
    simp only [formatSourcesGo]
    by_cases h : sourceKey d ∈ seen
    · rw [if_pos h]
      exact Nat.le_succ_of_le (ih seen)
    · rw [if_neg h]
      simpa using ih (sourceKey d :: seen)

/-- With a duplicated source key (or a key already seen), strictly fewer
citations than documents are produced. -/
theorem fsGo_len_lt (docs : List RagDoc) :
    ∀ seen, (¬ (docs.map sourceKey).Nodup ∨ ∃ d ∈ docs, sourceKey d ∈ seen) →
    (formatSourcesGo seen docs).length < docs.length := by
  induction docs with
  | nil =>
    intro seen h
    rcases h with h | ⟨d, hd, _⟩
    · simp at h
    · simp at hd
  | cons d ds ih =>
    intro seen h
    simp only [formatSourcesGo]
    by_cases hmem : sourceKey d ∈ seen
    · rw [if_pos hmem]
      exact Nat.lt_succ_of_le (fsGo_len_le ds seen)
    · rw [if_neg hmem]
      simp only [List.length_cons, Nat.add_lt_add_iff_right]
      apply ih
      rcases h with h | ⟨e, he, hes⟩
      · rw [List.map_cons, List.nodup_cons] at h
        by_cases hk : sourceKey d ∈ ds.map sourceKey
        · right
          rcases List.mem_map.mp hk with ⟨e, he, hke⟩
          exact ⟨e, he, by rw [hke]; exact List.mem_cons_self _ _⟩
        · left
          intro hnd
          exact h ⟨hk, hnd⟩
      · rcases List.mem_cons.mp he with rfl | he2
        · exact absurd hes hmem
        · exact Or.inr ⟨e, he2, List.mem_cons_of_mem _ hes⟩

/-- Claim C10: a successful `query` reports `num_sources` as the number of
retrieved passages, before citation deduplication; when two retrieved
passages share a source key, `num_sources` strictly exceeds the number of
returned citations. -/
theorem c10_num_sources (hist : List (Str × Str)) (q : Str) (t : Option Str)
    (docs : List RagDoc) (gen : Option Str) (hist2 : List (Str × Str))
    (res : QueryResult) (h : query hist q t docs gen = Except.ok (hist2, res)) :
    res.num_sources = docs.length ∧
    (¬ (docs.map sourceKey).Nodup → res.sources.length < res.num_sources) := by
  cases hq : validate_question q with
  | error e =>
    unfold query at h
    rw [hq] at h
    simp [Bind.bind, Except.bind] at h
  | ok q2 =>
    cases ht : validate_ticker t with
    | error e =>
      unfold query at h
      rw [hq, ht] at h
      simp [Bind.bind, Except.bind] at h
    | ok t2 =>
      unfold query at h
      rw [hq, ht] at h
      simp only [Bind.bind, Except.bind, pure, Except.pure, Except.ok.injEq,
        Prod.mk.injEq] at h
      obtain ⟨-, h2⟩ := h
      rw [← h2]
      exact ⟨rfl, fun hdup => fsGo_len_lt docs [] (Or.inl hdup)⟩

/-- Witness for C10: two passages sharing the source key produce one
citation while `num_sources` is 2. -/
theorem c10_num_sources_witness :
    query [] (str "Q") none [docA, docA] (some (str "A")) =
      Except.ok ([(str "Q", str "A")], ⟨str "A", [mkCitation docA], 2⟩) ∧
    ¬ (([docA, docA].map sourceKey)).Nodup ∧
    ([mkCitation docA] : List Citation).length < 2 :=
  ⟨by decide, by decide,
    (c10_num_sources [] (str "Q") none [docA, docA] (some (str "A"))
      [(str "Q", str "A")] ⟨str "A", [mkCitation docA], 2⟩ (by decide)).2 (by decide)⟩

/-! ## Claim C7 — a short section is one unchanged passage -/

/-- Claim C7: chunking a non-empty content string strictly shorter than the
configured chunk size yields exactly one passage whose content is the input
unchanged. -/
theorem c7_short_section_single_passage (c : Chunker) (content : Str) (md : ChunkMeta)
    (hne : content ≠ []) (hlen : content.length < c.chunk_size) :
    (chunk_section c content md).map ChunkDoc.page_content = [content] := by
  unfold chunk_section split_text
  rw [if_neg hne]
  have hsplit : splitRec c.chunk_size c.chunk_overlap separators content = [content] := by
    unfold separators
    rw [splitRec]
    rw [if_pos (Nat.le_of_lt hlen)]
  rw [hsplit]
  rfl

/-- Witness for C7: a 35-character content with the test chunker (size 500,
overlap 50) comes back as the single unchanged passage. -/
theorem c7_short_section_single_passage_witness :
    (chunk_section (mkChunker (some 500) (some 50))
      (str "This is a very short piece of text.") ⟨some (str "TEST"), none, []⟩).map
        ChunkDoc.page_content = [str "This is a very short piece of text."] :=
  c7_short_section_single_passage (mkChunker (some 500) (some 50))
    (str "This is a very short piece of text.") ⟨some (str "TEST"), none, []⟩
    (by decide) (by decide)

/-! ## Claim C4 — chunk id determinism and distinctness -/

/-- The chunk ids of the documents built by `chunkDocsGo` are the id
function applied to the running index. -/
theorem chunkDocsGo_map_id (md : ChunkMeta) (total : Nat) :
    ∀ (chunks : List Str) (i : Nat),
    (chunkDocsGo md total i chunks).map ChunkDoc.chunk_id =
      (List.range chunks.length).map (fun k =>
        generate_chunk_id (md.ticker.getD (str "UNK")) (md.item_number.getD (str "0")) (i + k)) := by
  intro chunks
  induction chunks with
  | nil => intro i; rfl
  | cons ch chs ih =>
    intro i
    simp only [chunkDocsGo, List.map_cons, List.length_cons, List.range_succ_eq_map,
      List.map_map, Nat.add_zero]
    congr 1
    rw [ih (i + 1)]
    apply List.map_congr_left
    intro k _
    simp only [Function.comp]
    congr 1
    omega

/-- The document at position `k` of `chunkDocsGo` carries the id of index
`i + k`. -/
theorem chunkDocsGo_getElem_id (md : ChunkMeta) (total : Nat) :
    ∀ (chunks : List Str) (i k : Nat) (d : ChunkDoc),
    (chunkDocsGo md total i chunks)[k]? = some d →
    d.chunk_id = generate_chunk_id (md.ticker.getD (str "UNK"))
      (md.item_number.getD (str "0")) (i + k) := by
  intro chunks
  induction chunks with
  | nil => intro i k d h; simp [chunkDocsGo] at h
  | cons ch chs ih =>
    intro i k d h
    cases k with
    | zero =>
      simp only [chunkDocsGo, List.getElem?_cons_zero, Option.some.injEq] at h
      rw [← h, Nat.add_zero]
    | succ k2 =>
      simp only [chunkDocsGo, List.getElem?_cons_succ] at h
      have := ih (i + 1) k2 d h
      rw [this]
      congr 1
      omega

/-- The chunk ids of a section are the id function over `0, 1, …`. -/
theorem chunk_section_map_id (c : Chunker) (content : Str) (md : ChunkMeta) :
    (chunk_section c content md).map ChunkDoc.chunk_id =
      (List.range (split_text c content).length).map
        (generate_chunk_id (md.ticker.getD (str "UNK")) (md.item_number.getD (str "0"))) := by
  unfold chunk_section
  rw [chunkDocsGo_map_id]
  apply List.map_congr_left
  intro k _
  rw [Nat.zero_add]

/-- Claim C4 as amended: the chunk id is a pure function of
(ticker, item_number, chunk_index) — two chunking calls with the same
ticker and item number give the same id at the same position, whatever the
contents and chunker configurations; and within one section the ids are
pairwise distinct whenever the id function itself does not collide on the
section's index range (which a 48-bit truncated hash cannot guarantee for
unboundedly many indices, see the counterexample). -/
theorem c4_chunk_id_pure_function (c1 c2 : Chunker) (content1 content2 : Str)
    (md1 md2 : ChunkMeta) (i : Nat) (d1 d2 : ChunkDoc)
    (h1 : (chunk_section c1 content1 md1)[i]? = some d1)
    (h2 : (chunk_section c2 content2 md2)[i]? = some d2)
    (ht : md1.ticker = md2.ticker) (hn : md1.item_number = md2.item_number) :
    d1.chunk_id = d2.chunk_id ∧
    ((∀ a b : Nat, a < (split_text c1 content1).length →
        b < (split_text c1 content1).length →
        generate_chunk_id (md1.ticker.getD (str "UNK"))
          (md1.item_number.getD (str "0")) a =
        generate_chunk_id (md1.ticker.getD (str "UNK"))
          (md1.item_number.getD (str "0")) b → a = b) →
      ((chunk_section c1 content1 md1).map ChunkDoc.chunk_id).Pairwise (fun a b => a ≠ b)) := by
  constructor
  · have e1 := chunkDocsGo_getElem_id md1 (split_text c1 content1).length
      (split_text c1 content1) 0 i d1 h1
    have e2 := chunkDocsGo_getElem_id md2 (split_text c2 content2).length
      (split_text c2 content2) 0 i d2 h2
    rw [e1, e2, ht, hn]
  · intro hinj
    rw [chunk_section_map_id, List.pairwise_map]
    apply List.Pairwise.imp_of_mem ?_ (List.pairwise_lt_range _)
    intro a b ha hb hlt heq
    have hab := hinj a b (List.mem_range.mp ha) (List.mem_range.mp hb) heq
    omega

/-- Witness fixtures for C4: one chunker, two different contents. -/
def chunkerW : Chunker := mkChunker (some 20) (some 4)

/-- A content splitting into two chunks under `chunkerW`. -/
def contentW1 : Str := str "aaaa bbbb cccc dddd eeee ffff gggg"

/-- A different, single-chunk content. -/
def contentW2 : Str := str "other text"

/-- The witness metadata. -/
def mdW : ChunkMeta := ⟨some (str "T"), some (str "1"), []⟩

/-- The first document of the first witness chunking. -/
def docW1 : ChunkDoc := ((chunk_section chunkerW contentW1 mdW)[0]?).getD
  ⟨[], mdW, 0, [], 0, 0⟩

/-- The first document of the second witness chunking. -/
def docW2 : ChunkDoc := ((chunk_section chunkerW contentW2 mdW)[0]?).getD
  ⟨[], mdW, 0, [], 0, 0⟩

set_option maxRecDepth 40000 in
/-- Witness for C4: two chunkings of different contents assign the same id
to position 0 (content independence), and the two-chunk section's ids are
pairwise distinct. -/
theorem c4_chunk_id_pure_function_witness :
    docW1.chunk_id = docW2.chunk_id ∧
    ((chunk_section chunkerW contentW1 mdW).map ChunkDoc.chunk_id).Pairwise
      (fun a b => a ≠ b) := by
  have h := c4_chunk_id_pure_function chunkerW chunkerW contentW1 contentW2 mdW mdW 0
    docW1 docW2 (by decide) (by decide) rfl rfl
  refine ⟨h.1, h.2 ?_⟩
  have hl : (split_text chunkerW contentW1).length = 2 := by decide
  rw [hl]
  intro a b ha hb heq
  interval_cases a <;> interval_cases b <;> first
    | rfl
    | (exfalso; revert heq; decide)

/-- The value of a byte list, most significant byte first. -/
def bytesVal (l : List Nat) : Nat := l.foldl (fun a b => 256 * a + b) 0

/-- `leBytes` produces exactly `k` bytes. -/
theorem leBytes_length : ∀ (k n : Nat), (leBytes k n).length = k := by
  intro k
  induction k with
  | zero => intro n; rfl
  | succ k2 ih => intro n; simp [leBytes, ih]

/-- Every entry of `leBytes` is a byte. -/
theorem leBytes_lt : ∀ (k n : Nat), ∀ b ∈ leBytes k n, b < 256 := by
  intro k
  induction k with
  | zero => intro n b hb; simp [leBytes] at hb
  | succ k2 ih =>
    intro n b hb
    simp only [leBytes, List.mem_cons] at hb
    rcases hb with rfl | hb
    · exact Nat.mod_lt _ (by omega)
    · exact ih _ b hb

/-- The MD5 digest has 16 bytes. -/
theorem md5Digest_length (m : List Nat) : (md5Digest m).length = 16 := by
  unfold md5Digest
  simp [leBytes_length]

/-- Every entry of the MD5 digest is a byte. -/
theorem md5Digest_lt (m : List Nat) : ∀ b ∈ md5Digest m, b < 256 := by
  unfold md5Digest
  intro b hb
  simp only [List.mem_append] at hb
  rcases hb with ((hb | hb) | hb) | hb <;> exact leBytes_lt _ _ b hb

/-- Folding bytes from an arbitrary accumulator. -/
theorem foldl_bytesVal (l : List Nat) :
    ∀ a, l.foldl (fun x b => 256 * x + b) a = a * 256 ^ l.length + bytesVal l := by
  induction l with
  | nil => intro a; simp [bytesVal]
  | cons b bs ih =>
    intro a
    have hbv : bytesVal (b :: bs) = b * 256 ^ bs.length + bytesVal bs := by
      unfold bytesVal
      rw [List.foldl_cons]
      have := ih (256 * 0 + b)
      simpa using this
    rw [List.foldl_cons, ih (256 * a + b), hbv, List.length_cons, pow_succ]
    ring

/-- A list of bytes is below `256 ^ length`. -/
theorem bytesVal_lt (l : List Nat) (h : ∀ b ∈ l, b < 256) :
    bytesVal l < 256 ^ l.length := by
  induction l with
  | nil => simp [bytesVal]
  | cons b bs ih =>
    have hbv : bytesVal (b :: bs) = b * 256 ^ bs.length + bytesVal bs := by
      unfold bytesVal
      rw [List.foldl_cons]
      have := foldl_bytesVal bs (256 * 0 + b)
      simpa using this
    have hb : b < 256 := h b (List.mem_cons_self b bs)
    have hv : bytesVal bs < 256 ^ bs.length := ih (fun x hx => h x (List.mem_cons_of_mem _ hx))
    rw [hbv, List.length_cons, pow_succ]
    calc b * 256 ^ bs.length + bytesVal bs
        < b * 256 ^ bs.length + 256 ^ bs.length := by omega
      _ = (b + 1) * 256 ^ bs.length := by ring
      _ ≤ 256 * 256 ^ bs.length := Nat.mul_le_mul_right _ (by omega)
      _ = 256 ^ bs.length * 256 := by ring

/-- `bytesVal` is injective on byte lists of equal length. -/
theorem bytesVal_inj : ∀ (l1 l2 : List Nat), l1.length = l2.length →
    (∀ b ∈ l1, b < 256) → (∀ b ∈ l2, b < 256) → bytesVal l1 = bytesVal l2 → l1 = l2 := by
  intro l1
  induction l1 with
  | nil =>
    intro l2 hlen _ _ _
    cases l2 with
    | nil => rfl
    | cons b bs => simp at hlen
  | cons b1 bs1 ih =>
    intro l2 hlen hb1 hb2 hv
    cases l2 with
    | nil => simp at hlen
    | cons b2 bs2 =>
      have hlen2 : bs1.length = bs2.length := by simpa using hlen
      have e1 : bytesVal (b1 :: bs1) = b1 * 256 ^ bs1.length + bytesVal bs1 := by
        unfold bytesVal
        rw [List.foldl_cons]
        have := foldl_bytesVal bs1 (256 * 0 + b1)
        simpa using this
      have e2 : bytesVal (b2 :: bs2) = b2 * 256 ^ bs2.length + bytesVal bs2 := by
        unfold bytesVal
        rw [List.foldl_cons]
        have := foldl_bytesVal bs2 (256 * 0 + b2)
        simpa using this
      rw [e1, e2, ← hlen2] at hv
      have hvb1 : bytesVal bs1 < 256 ^ bs1.length :=
        bytesVal_lt bs1 (fun x hx => hb1 x (List.mem_cons_of_mem _ hx))
      have hvb2 : bytesVal bs2 < 256 ^ bs1.length := by
        rw [hlen2]
        exact bytesVal_lt bs2 (fun x hx => hb2 x (List.mem_cons_of_mem _ hx))
      have hbeq : b1 = b2 := by
        rcases Nat.lt_trichotomy b1 b2 with hlt | heq | hgt
        · exfalso
          have : b1 * 256 ^ bs1.length + bytesVal bs1 < b2 * 256 ^ bs1.length + bytesVal bs2 := by
            calc b1 * 256 ^ bs1.length + bytesVal bs1
                < (b1 + 1) * 256 ^ bs1.length := by
                  have := hvb1
                  nlinarith [pow_pos (show 0 < 256 by omega) bs1.length]
              _ ≤ b2 * 256 ^ bs1.length := Nat.mul_le_mul_right _ (by omega)
              _ ≤ b2 * 256 ^ bs1.length + bytesVal bs2 := Nat.le_add_right _ _
          omega
        · exact heq
        · exfalso
          have : b2 * 256 ^ bs1.length + bytesVal bs2 < b1 * 256 ^ bs1.length + bytesVal bs1 := by
            calc b2 * 256 ^ bs1.length + bytesVal bs2
                < (b2 + 1) * 256 ^ bs1.length := by
                  have := hvb2
                  nlinarith [pow_pos (show 0 < 256 by omega) bs1.length]
              _ ≤ b1 * 256 ^ bs1.length := Nat.mul_le_mul_right _ (by omega)
              _ ≤ b1 * 256 ^ bs1.length + bytesVal bs1 := Nat.le_add_right _ _
          omega
      subst hbeq
      have hveq : bytesVal bs1 = bytesVal bs2 := by omega
      rw [ih bs2 hlen2 (fun x hx => hb1 x (List.mem_cons_of_mem _ hx))
        (fun x hx => hb2 x (List.mem_cons_of_mem _ hx)) hveq]

/-- Taking `2 k` hex characters of a hex dump is dumping `k` bytes. -/
theorem flatMap_byteHex_take : ∀ (l : List Nat) (k : Nat),
    (l.flatMap byteHex).take (2 * k) = (l.take k).flatMap byteHex := by
  intro l
  induction l with
  | nil => intro k; simp
  | cons b bs ih =>
    intro k
    cases k with
    | zero => simp
    | succ k2 =>
      rw [show 2 * (k2 + 1) = 2 * k2 + 1 + 1 from by ring]
      simp only [List.flatMap_cons, byteHex, List.cons_append, List.nil_append,
        List.take_succ_cons]
      rw [ih k2]

/-- Agreement of the 48-bit digest prefixes forces agreement of the
12-hexadecimal-character truncated ids. -/
theorem chunk_id_of_trunc_eq (m1 m2 : List Nat)
    (h : bytesVal ((md5Digest m1).take 6) = bytesVal ((md5Digest m2).take 6)) :
    (hexdigest (md5Digest m1)).take 12 = (hexdigest (md5Digest m2)).take 12 := by
  have e : (md5Digest m1).take 6 = (md5Digest m2).take 6 := by
    apply bytesVal_inj _ _ ?_ ?_ ?_ h
    · rw [List.length_take, List.length_take, md5Digest_length, md5Digest_length]
    · intro b hb
      exact md5Digest_lt m1 b (List.mem_of_mem_take hb)
    · intro b hb
      exact md5Digest_lt m2 b (List.mem_of_mem_take hb)
  have h12 : (12 : Nat) = 2 * 6 := rfl
  unfold hexdigest
  rw [h12, flatMap_byteHex_take, flatMap_byteHex_take, e]

/-- A prefix of a replicated list consists of the replicated character. -/
theorem isPrefixOf_replicate_all {sep : Str} {n : Nat} {c : Char}
    (h : sep.isPrefixOf (List.replicate n c) = true) : ∀ d ∈ sep, d = c := by
  intro d hd
  have hpre := (List.isPrefixOf_iff_prefix).mp h
  have hmem : d ∈ List.replicate n c := hpre.sublist.mem hd
  exact List.eq_of_mem_replicate hmem

/-- A separator containing a character other than `c` does not occur in a
replicated run of `c`. -/
theorem containsSub_replicate_false (sep : Str) (c d : Char) (hd : d ∈ sep)
    (hdc : d ≠ c) : ∀ n, containsSub (List.replicate n c) sep = false := by
  intro n
  induction n with
  | zero =>
    cases sep with
    | nil => simp at hd
    | cons e es => simp [containsSub, List.isEmpty]
  | succ m ih =>
    rw [List.replicate_succ]
    simp only [containsSub]
    cases hp : sep.isPrefixOf (c :: List.replicate m c) with
    | false =>
      rw [← List.replicate_succ] at *
      simp only [Bool.false_or]
      exact ih
    | true =>
      exfalso
      rw [← List.replicate_succ] at hp
      exact hdc (isPrefixOf_replicate_all hp d hd)

/-- On a separator-free replicated run longer than the budget, the
recursive splitter falls through every separator to the character-level
fallback. -/
theorem splitRec_replicate_fallback (size overlap : Nat) (c : Char) (n : Nat)
    (hsize : size < n) : ∀ seps : List Str, (∀ sep ∈ seps, ∃ d ∈ sep, d ≠ c) →
    splitRec size overlap seps (List.replicate n c) =
      charChunks size (size - overlap) (List.replicate n c) := by
  intro seps
  induction seps with
  | nil => intro _; rfl
  | cons sep rest ih =>
    intro hall
    obtain ⟨d, hd, hdc⟩ := hall sep (List.mem_cons_self sep rest)
    simp only [splitRec]
    rw [if_neg (by rw [List.length_replicate]; omega),
      containsSub_replicate_false sep c d hd hdc n]
    simp only [Bool.false_eq_true, if_false]
    exact ih (fun s hs => hall s (List.mem_cons_of_mem _ hs))

/-- Skipping `k ≤ n` characters of a replicated run. -/
theorem ccGo_skip (size step : Nat) (c : Char) : ∀ (k n : Nat), k ≤ n →
    charChunksGo size step k (List.replicate n c) =
      charChunksGo size step 0 (List.replicate (n - k) c) := by
  intro k
  induction k with
  | zero => intro n _; rw [Nat.sub_zero]
  | succ k2 ih =>
    intro n hkn
    cases n with
    | zero => omega
    | succ m =>
      rw [List.replicate_succ]
      simp only [charChunksGo]
      rw [ih m (by omega)]
      have h3 : m + 1 - (k2 + 1) = m - k2 := by omega
      rw [h3]

/-- Chunk count of the default character-level fallback on a replicated
run of `1200 k + 1500` characters: `k + 1` chunks. -/
theorem ccGo_count_1500 : ∀ k : Nat,
    (charChunksGo 1500 1200 0 (List.replicate (1200 * k + 1500) 'x')).length = k + 1 := by
  intro k
  induction k with
  | zero =>
    rw [show 1200 * 0 + 1500 = 1499 + 1 from by norm_num, List.replicate_succ]
    rw [charChunksGo]
    rw [if_pos (by rw [List.length_cons, List.length_replicate])]
    rfl
  | succ k2 ih =>
    rw [show 1200 * (k2 + 1) + 1500 = (1200 * k2 + 2699) + 1 from by ring,
      List.replicate_succ]
    rw [charChunksGo]
    rw [if_neg (by rw [List.length_cons, List.length_replicate]; omega)]
    rw [show (1200 : Nat) - 1 = 1199 from rfl, ccGo_skip 1500 1200 'x' 1199 _ (by omega),
      show 1200 * k2 + 2699 - 1199 = 1200 * k2 + 1500 from by omega]
    rw [List.length_cons, ih]

/-- The metadata of the counterexample chunking. -/
def mdT : ChunkMeta := ⟨some (str "T"), some (str "1"), []⟩

/-- The truncated 48-bit digest value of the id message for index `i` is
below `2 ^ 48`. -/
theorem truncVal_lt (i : Nat) :
    bytesVal ((md5Digest (strToBytes
      (str "T" ++ ['_'] ++ str "1" ++ ['_'] ++ natToStr i))).take 6) < 2 ^ 48 := by
  have h1 := bytesVal_lt ((md5Digest (strToBytes
      (str "T" ++ ['_'] ++ str "1" ++ ['_'] ++ natToStr i))).take 6)
    (fun b hb => md5Digest_lt _ b (List.mem_of_mem_take hb))
  rw [List.length_take, md5Digest_length] at h1
  have h2 : min 6 16 = 6 := rfl
  rw [h2] at h1
  have h3 : (256 : Nat) ^ 6 = 2 ^ 48 := by norm_num
  rw [h3] at h1
  exact h1

/-- Counterexample to the distinctness half of claim C4: chunk ids are a
48-bit truncated hash of the chunk index, so by the pigeonhole principle a
section with `2 ^ 48 + 1` chunks (a replicated run of `1200 · 2 ^ 48 +
1500` characters under the default 1500/300 configuration) must repeat an
id — the ids of one section are not pairwise distinct for every section. -/
theorem c4_distinctness_counterexample :
    ¬ (∀ (c : Chunker) (content : Str) (md : ChunkMeta),
        ((chunk_section c content md).map ChunkDoc.chunk_id).Pairwise (fun a b => a ≠ b)) := by
  intro hall
  have h48 : (2 : Nat) ^ 48 = 281474976710656 := by norm_num
  have hlen : (split_text ⟨1500, 300⟩
      (List.replicate (1200 * 2 ^ 48 + 1500) 'x')).length = 2 ^ 48 + 1 := by
    unfold split_text
    rw [if_neg ?hne]
    case hne =>
      intro hh
      have := congrArg List.length hh
      rw [List.length_replicate] at this
      simp only [List.length_nil] at this
      omega
    rw [splitRec_replicate_fallback 1500 300 'x' _ (by omega) separators ?hseps]
    case hseps =>
      intro sep hsep
      fin_cases hsep <;> decide
    unfold charChunks
    rw [if_neg ?hcc]
    case hcc =>
      rw [List.length_replicate]
      push_neg
      constructor
      · omega
      · decide
    rw [show (1500 : Nat) - 300 = 1200 from rfl]
    exact ccGo_count_1500 (2 ^ 48)
  have hids : ((chunk_section ⟨1500, 300⟩ (List.replicate (1200 * 2 ^ 48 + 1500) 'x')
      mdT).map ChunkDoc.chunk_id) =
      (List.range (2 ^ 48 + 1)).map (generate_chunk_id (str "T") (str "1")) := by
    rw [chunk_section_map_id, hlen]
    rfl
  obtain ⟨x, y, hxy, hfeq⟩ := Fintype.exists_ne_map_eq_of_card_lt
    (fun i : Fin (2 ^ 48 + 1) =>
      (⟨bytesVal ((md5Digest (strToBytes
        (str "T" ++ ['_'] ++ str "1" ++ ['_'] ++ natToStr i.val))).take 6),
        truncVal_lt i.val⟩ : Fin (2 ^ 48)))
    (by rw [Fintype.card_fin, Fintype.card_fin]; omega)
  have hideq : generate_chunk_id (str "T") (str "1") x.val =
      generate_chunk_id (str "T") (str "1") y.val := by
    unfold generate_chunk_id
    exact chunk_id_of_trunc_eq _ _ (congrArg Fin.val hfeq)
  have hp := hall ⟨1500, 300⟩ (List.replicate (1200 * 2 ^ 48 + 1500) 'x') mdT
  rw [hids, List.pairwise_iff_getElem] at hp
  have hlen2 : ((List.range (2 ^ 48 + 1)).map
      (generate_chunk_id (str "T") (str "1"))).length = 2 ^ 48 + 1 := by
    simp
  rcases Nat.lt_or_ge x.val y.val with hlt | hge
  · have hcontra := hp x.val y.val (by rw [hlen2]; exact x.isLt) (by rw [hlen2]; exact y.isLt) hlt
    simp only [List.getElem_map, List.getElem_range] at hcontra
    exact hcontra hideq
  · have hlt2 : y.val < x.val := by
      rcases Nat.lt_or_ge y.val x.val with h | h
      · exact h
      · exact absurd (Fin.ext (Nat.le_antisymm h hge)) hxy
    have hcontra := hp y.val x.val (by rw [hlen2]; exact y.isLt) (by rw [hlen2]; exact x.isLt) hlt2
    simp only [List.getElem_map, List.getElem_range] at hcontra
    exact hcontra hideq.symm

/-! ## Parser lemmas: the stable sort, deduplication and extraction -/

/-- Stripping never lengthens the text. -/
theorem pyStrip_length_le (l : Str) : (pyStrip l).length ≤ l.length := by
  unfold pyStrip
  rw [List.length_reverse]
  calc ((l.dropWhile isPySpace).reverse.dropWhile isPySpace).length
      ≤ (l.dropWhile isPySpace).reverse.length := dropWhile_len_le _ _
    _ = (l.dropWhile isPySpace).length := List.length_reverse _
    _ ≤ l.length := dropWhile_len_le _ _

/-- A slice is no longer than the offset difference. -/
theorem slice_length_le (t : Str) (a b : Nat) : (slice t a b).length ≤ b - a := by
  unfold slice
  rw [List.length_take]
  omega

/-- Stripping text whose first and last characters are not whitespace is
the identity. -/
theorem pyStrip_id_of_ends (l : Str)
    (h1 : ∀ c ∈ l.head?, isPySpace c = false)
    (h2 : ∀ c ∈ l.getLast?, isPySpace c = false) : pyStrip l = l := by
  unfold pyStrip
  have hd : l.dropWhile isPySpace = l := by
    cases l with
    | nil => rfl
    | cons c cs =>
      rw [List.dropWhile_cons, h1 c (by simp)]
      simp
  rw [hd]
  have hd2 : l.reverse.dropWhile isPySpace = l.reverse := by
    cases hr : l.reverse with
    | nil => rfl
    | cons c cs =>
      rw [List.dropWhile_cons]
      have hc : l.getLast? = some c := by
        rw [← List.head?_reverse, hr]
        rfl
      rw [h2 c (by rw [hc]; rfl)]
      simp
  rw [hd2, List.reverse_reverse]

/-- Membership after the insertion step of the sort. -/
theorem mem_insertPos (x p : SectionPos) : ∀ l, p ∈ insertPos x l ↔ p = x ∨ p ∈ l := by
  intro l
  induction l with
  | nil => simp [insertPos]
  | cons y ys ih =>
    simp only [insertPos]
    by_cases h : y.start < x.start
    · rw [if_pos h]
      simp only [List.mem_cons, ih]
      tauto
    · rw [if_neg h]
      simp only [List.mem_cons]

/-- The sort permutes nothing in or out. -/
theorem mem_sortPositions (p : SectionPos) : ∀ l, p ∈ sortPositions l ↔ p ∈ l := by
  intro l
  induction l with
  | nil => simp [sortPositions]
  | cons x xs ih =>
    simp only [sortPositions, mem_insertPos, ih, List.mem_cons]

/-- The comparison used by the parser's sort. -/
def posLe (a b : SectionPos) : Prop := a.start ≤ b.start

/-- Insertion preserves sortedness by start offset. -/
theorem pairwise_insertPos (x : SectionPos) :
    ∀ l, l.Pairwise posLe → (insertPos x l).Pairwise posLe := by
  intro l
  induction l with
  | nil => intro _; simp [insertPos, List.pairwise_cons]
  | cons y ys ih =>
    intro hp
    rw [List.pairwise_cons] at hp
    simp only [insertPos]
    by_cases h : y.start < x.start
    · rw [if_pos h]
      rw [List.pairwise_cons]
      constructor
      · intro z hz
        rcases (mem_insertPos x z ys).mp hz with rfl | hz2
        · exact Nat.le_of_lt h
        · exact hp.1 z hz2
      · exact ih hp.2
    · rw [if_neg h]
      rw [List.pairwise_cons]
      constructor
      · intro z hz
        rcases List.mem_cons.mp hz with rfl | hz2
        · exact Nat.le_of_not_lt h
        · exact Nat.le_trans (Nat.le_of_not_lt h) (hp.1 z hz2)
      · exact List.Pairwise.cons hp.1 hp.2

/-- The parser's sort is sorted by start offset. -/
theorem pairwise_sortPositions : ∀ l : List SectionPos, (sortPositions l).Pairwise posLe := by
  intro l
  induction l with
  | nil => simp [sortPositions]
  | cons x xs ih => exact pairwise_insertPos x _ ih

/-- Deduplication yields a sublist. -/
theorem dedup_sublist : ∀ (l : List SectionPos) (seen : List Str),
    (dedupPositions l seen).Sublist l := by
  intro l
  induction l with
  | nil => intro seen; simp [dedupPositions]
  | cons p ps ih =>
    intro seen
    simp only [dedupPositions]
    by_cases h : p.itemNum ∈ seen
    · rw [if_pos h]
      exact (ih seen).cons p
    · rw [if_neg h]
      exact (ih (p.itemNum :: seen)).cons₂ p

/-- An entry surviving deduplication was not already seen. -/
theorem dedup_not_seen : ∀ (l : List SectionPos) (seen : List Str) (p : SectionPos),
    p ∈ dedupPositions l seen → p.itemNum ∉ seen := by
  intro l
  induction l with
  | nil => intro seen p hp; simp [dedupPositions] at hp
  | cons q qs ih =>
    intro seen p hp
    simp only [dedupPositions] at hp
    by_cases h : q.itemNum ∈ seen
    · rw [if_pos h] at hp
      exact ih seen p hp
    · rw [if_neg h] at hp
      rcases List.mem_cons.mp hp with rfl | hp2
      · exact h
      · intro hmem
        exact ih _ p hp2 (List.mem_cons_of_mem _ hmem)

/-- In a sorted list, an entry surviving deduplication starts no later than
any entry of the list that shares its item number. -/
theorem dedup_min_start : ∀ (l : List SectionPos), l.Pairwise posLe →
    ∀ (seen : List Str) (p : SectionPos), p ∈ dedupPositions l seen →
    ∀ q ∈ l, q.itemNum = p.itemNum → p.start ≤ q.start := by
  intro l
  induction l with
  | nil => intro _ seen p hp; simp [dedupPositions] at hp
  | cons a rest ih =>
    intro hpair seen p hp q hq hkey
    rw [List.pairwise_cons] at hpair
    simp only [dedupPositions] at hp
    by_cases h : a.itemNum ∈ seen
    · rw [if_pos h] at hp
      rcases List.mem_cons.mp hq with hqa | hq2
      · exfalso
        apply dedup_not_seen rest seen p hp
        rw [← hkey, hqa]
        exact h
      · exact ih hpair.2 seen p hp q hq2 hkey
    · rw [if_neg h] at hp
      rcases List.mem_cons.mp hp with hpa | hp2
      · rcases List.mem_cons.mp hq with hqa | hq2
        · rw [hpa, hqa]
        · rw [hpa]
          exact hpair.1 q hq2
      · rcases List.mem_cons.mp hq with hqa | hq2
        · exfalso
          have hns := dedup_not_seen rest (a.itemNum :: seen) p hp2
          apply hns
          rw [← hkey, hqa]
          exact List.mem_cons_self _ _
        · exact ih hpair.2 _ p hp2 q hq2 hkey

/-- The item numbers surviving deduplication are pairwise distinct. -/
theorem dedup_keys_nodup : ∀ (l : List SectionPos) (seen : List Str),
    ((dedupPositions l seen).map SectionPos.itemNum).Nodup := by
  intro l
  induction l with
  | nil => intro seen; simp [dedupPositions]
  | cons p ps ih =>
    intro seen
    simp only [dedupPositions]
    by_cases h : p.itemNum ∈ seen
    · rw [if_pos h]
      exact ih seen
    · rw [if_neg h]
      rw [List.map_cons, List.nodup_cons]
      constructor
      · intro hmem
        rcases List.mem_map.mp hmem with ⟨q, hq, hkey⟩
        exact dedup_not_seen ps _ q hq (hkey ▸ List.mem_cons_self _ _)
      · exact ih (p.itemNum :: seen)

/-- Membership in `allPositions` unpacked: every recorded position comes
from the match list of one `SECTIONS` entry, and carries that entry's item
number. -/
theorem mem_allPositions (t : Str) (p : SectionPos) (hp : p ∈ allPositions t) :
    ∃ pr ∈ SECTIONS, ∃ m ∈ findMatches pr.1 pr.2 t,
      p = ⟨m.1, pr.1, slice t m.1 m.2, pr.2⟩ := by
  unfold allPositions at hp
  rcases List.mem_flatMap.mp hp with ⟨pr, hpr, hmem⟩
  unfold sectionPositionsFor at hmem
  rcases List.mem_map.mp hmem with ⟨m, hm, hmk⟩
  exact ⟨pr, hpr, m, hm, hmk.symm⟩

/-- Conversely, each match of a `SECTIONS` entry is recorded. -/
theorem mk_mem_allPositions (t : Str) (pr : Str × Str) (hpr : pr ∈ SECTIONS)
    (m : Nat × Nat) (hm : m ∈ findMatches pr.1 pr.2 t) :
    (⟨m.1, pr.1, slice t m.1 m.2, pr.2⟩ : SectionPos) ∈ allPositions t := by
  unfold allPositions
  apply List.mem_flatMap.mpr
  exact ⟨pr, hpr, List.mem_map.mpr ⟨m, hm, rfl⟩⟩

/-- The `SECTIONS` table has pairwise distinct item numbers. -/
theorem SECTIONS_keys_nodup : (SECTIONS.map Prod.fst).Nodup := by decide

/-- Two `SECTIONS` entries with the same item number coincide. -/
theorem SECTIONS_key_unique (pr1 pr2 : Str × Str) (h1 : pr1 ∈ SECTIONS)
    (h2 : pr2 ∈ SECTIONS) (hk : pr1.1 = pr2.1) : pr1 = pr2 := by
  have hnd := SECTIONS_keys_nodup
  rcases List.getElem_of_mem h1 with ⟨i, hi, hie⟩
  rcases List.getElem_of_mem h2 with ⟨j, hj, hje⟩
  rw [List.nodup_iff_injective_getElem] at hnd
  have hij : i = j := by
    have := @hnd ⟨i, by simpa using hi⟩ ⟨j, by simpa using hj⟩ ?_
    · simpa using this
    · simp only [List.getElem_map]
      rw [hie, hje]
      exact hk
  subst hij
  exact hie.symm.trans hje

/-- Every section the extraction loop emits takes its item number, title
and start offset from a position of its input, and satisfies the content
and offset invariants. -/
theorem extractSections_mem (t : Str) : ∀ (ps : List SectionPos)
    (n : Str) (s : DocumentSection), (n, s) ∈ extractSections t ps →
    ∃ p ∈ ps, p.itemNum = n ∧ s.item_number = n ∧ s.item_title = p.itemTitle ∧
      s.start_idx = p.start ∧ 500 < s.content.length ∧ s.start_idx < s.end_idx := by
  intro ps
  induction ps with
  | nil => intro n s h; simp [extractSections] at h
  | cons p rest ih =>
    intro n s h
    simp only [extractSections] at h
    rcases List.mem_append.mp h with hin | hin
    · by_cases hlen : 500 < (pyStrip (slice t p.start (nextEnd t rest))).length
      · rw [if_pos hlen] at hin
        simp only [List.mem_singleton, Prod.mk.injEq] at hin
        obtain ⟨hn, hs⟩ := hin
        subst hs
        subst hn
        refine ⟨p, List.mem_cons_self _ _, rfl, rfl, rfl, rfl, hlen, ?_⟩
        show p.start < nextEnd t rest
        have hle := pyStrip_length_le (slice t p.start (nextEnd t rest))
        have hsl := slice_length_le t p.start (nextEnd t rest)
        omega
      · rw [if_neg hlen] at hin
        simp at hin
    · rcases ih n s hin with ⟨q, hq, hrest⟩
      exact ⟨q, List.mem_cons_of_mem _ hq, hrest⟩

/-- The emitted item numbers form a sublist of the input's item numbers. -/
theorem extractSections_keys_sublist (t : Str) : ∀ ps : List SectionPos,
    ((extractSections t ps).map Prod.fst).Sublist (ps.map SectionPos.itemNum) := by
  intro ps
  induction ps with
  | nil => simp [extractSections]
  | cons p rest ih =>
    simp only [extractSections]
    by_cases hlen : 500 < (pyStrip (slice t p.start (nextEnd t rest))).length
    · rw [if_pos hlen]
      simp only [List.map_append, List.map_cons]
      exact (List.Sublist.cons₂ _ ih)
    · rw [if_neg hlen]
      simp only [List.nil_append, List.map_cons]
      exact ih.cons _

/-- The deduplicated, sorted position list of `parse_filing`. -/
def uniquePositions (t : Str) : List SectionPos :=
  dedupPositions (sortPositions (allPositions (cleanText t))) []

/-- `parse_filing` through `uniquePositions`. -/
theorem parse_filing_eq (raw : Str) :
    parse_filing raw = extractSections (cleanText raw) (uniquePositions raw) := rfl

/-! ## Claim C6 — duplicate headers keep the first occurrence -/

/-- Claim C6: when an item's header pattern matches at two or more offsets
of the cleaned text, `parse_filing` still produces at most one section per
item number (its keys are pairwise distinct), and any section produced for
that item starts at one of the pattern's match offsets and at none later
than any of them — the first occurrence in document order. -/
theorem c6_first_occurrence_wins (t num title : Str)
    (hpr : (num, title) ∈ SECTIONS)
    (_h2 : 2 ≤ (findMatches num title (cleanText t)).length) :
    ((parse_filing t).map Prod.fst).Nodup ∧
    ∀ s : DocumentSection, (num, s) ∈ parse_filing t →
      (∃ m ∈ findMatches num title (cleanText t), s.start_idx = m.1) ∧
      ∀ m ∈ findMatches num title (cleanText t), s.start_idx ≤ m.1 := by
  constructor
  · apply List.Nodup.sublist (extractSections_keys_sublist _ _)
    exact dedup_keys_nodup _ _
  · intro s hs
    rw [parse_filing_eq] at hs
    rcases extractSections_mem _ _ num s hs with ⟨p, hpmem, hpkey, _, _, hstart, _, _⟩
    have hpsort : p ∈ sortPositions (allPositions (cleanText t)) :=
      (dedup_sublist _ _).mem hpmem
    have hpall : p ∈ allPositions (cleanText t) :=
      (mem_sortPositions p _).mp hpsort
    rcases mem_allPositions _ p hpall with ⟨pr, hprmem, m, hm, hpeq⟩
    have hprkey : pr.1 = num := by
      rw [hpeq] at hpkey
      exact hpkey
    have hpreq : pr = (num, title) :=
      SECTIONS_key_unique pr (num, title) hprmem hpr hprkey
    rw [hpreq] at hpeq hm
    constructor
    · refine ⟨m, hm, ?_⟩
      rw [hstart, hpeq]
    · intro m2 hm2
      have hmk2 : (⟨m2.1, num, slice (cleanText t) m2.1 m2.2, title⟩ : SectionPos) ∈
          allPositions (cleanText t) :=
        mk_mem_allPositions _ (num, title) hpr m2 hm2
      have hmk2s : (⟨m2.1, num, slice (cleanText t) m2.1 m2.2, title⟩ : SectionPos) ∈
          sortPositions (allPositions (cleanText t)) :=
        (mem_sortPositions _ _).mpr hmk2
      have hmin := dedup_min_start _ (pairwise_sortPositions _) [] p hpmem
        ⟨m2.1, num, slice (cleanText t) m2.1 m2.2, title⟩ hmk2s
        (by rw [hpeq])
      rw [hstart]
      exact hmin

/-- The C6 witness filing: the item 3 header appears twice. -/
def tC6 : Str := str "ITEM 3. " ++ List.replicate 600 'y' ++ str "ITEM 3. " ++ List.replicate 50 'y'

/-- A placeholder section for option defaults. -/
def dummySection : DocumentSection := ⟨[], [], [], 0, 0⟩

/-- The single section parsed from the C6 witness filing. -/
def secC6 : DocumentSection := (((parse_filing tC6)[0]?).getD (str "", dummySection)).2

set_option maxRecDepth 400000 in
set_option maxHeartbeats 4000000 in
/-- Witness for C6: the item 3 header matches twice (at 0 and 608), the
parse keys are distinct, and the produced section starts no later than the
second match. -/
theorem c6_first_occurrence_wins_witness :
    ((parse_filing tC6).map Prod.fst).Nodup ∧ secC6.start_idx ≤ 608 :=
  ⟨(c6_first_occurrence_wins tC6 (str "3") (str "Legal Proceedings")
      (by decide) (by decide)).1,
    ((c6_first_occurrence_wins tC6 (str "3") (str "Legal Proceedings")
      (by decide) (by decide)).2 secC6 (by decide)).2 (608, 616) (by decide)⟩

/-! ## Claim C5 — section invariants and boundary partition -/

/-- The extraction loop emits sections in order of the sorted positions,
each ending no later than the next begins. -/
theorem extract_chain (t : Str) : ∀ ps : List SectionPos, ps.Pairwise posLe →
    List.Chain' (fun a b : Str × DocumentSection => a.2.end_idx ≤ b.2.start_idx)
      (extractSections t ps) := by
  intro ps
  induction ps with
  | nil => intro _; simp [extractSections]
  | cons p rest ih =>
    intro hp
    rw [List.pairwise_cons] at hp
    simp only [extractSections]
    by_cases hlen : 500 < (pyStrip (slice t p.start (nextEnd t rest))).length
    · rw [if_pos hlen]
      rw [List.singleton_append, List.chain'_cons']
      constructor
      · intro y hy
        have hymem : y ∈ extractSections t rest := List.mem_of_mem_head? hy
        rcases extractSections_mem t rest y.1 y.2 hymem with
          ⟨q, hq, _, _, _, hystart, _, _⟩
        show nextEnd t rest ≤ y.2.start_idx
        rw [hystart]
        cases rest with
        | nil => simp at hq
        | cons q0 rest2 =>
          show q0.start ≤ q.start
          rcases List.mem_cons.mp hq with hq0 | hq2
          · rw [hq0]
          · exact (List.pairwise_cons.mp hp.2).1 q hq2
      · exact ih hp.2
    · rw [if_neg hlen]
      rw [List.nil_append]
      exact ih hp.2

set_option maxHeartbeats 4000000 in
/-- Claim C5 as amended: every section `parse_filing` returns has trimmed
content longer than 500 characters and a start offset strictly below its
end offset, and consecutive returned sections never overlap — the earlier
one ends no later than the later one begins.  Equality of the boundaries
(a partition) and termination of the last section at end-of-text can both
fail when a deduplicated match's section is discarded by the 500-character
filter, as the counterexample shows. -/
theorem c5_section_invariants (t : Str) :
    (∀ pr ∈ parse_filing t,
      500 < pr.2.content.length ∧ pr.2.start_idx < pr.2.end_idx) ∧
    List.Chain' (fun a b : Str × DocumentSection => a.2.end_idx ≤ b.2.start_idx)
      (parse_filing t) := by
  constructor
  · intro pr hpr
    rw [parse_filing_eq] at hpr
    rcases extractSections_mem (cleanText t) (uniquePositions t) pr.1 pr.2 hpr with
      ⟨q, _, _, _, _, _, hc, hlt⟩
    exact ⟨hc, hlt⟩
  · rw [parse_filing_eq]
    exact extract_chain (cleanText t) (uniquePositions t)
      (List.Pairwise.sublist (dedup_sublist _ _) (pairwise_sortPositions _))

/-- The C5 counterexample filing: items 3, 4 and 5, where item 4's section
is only 108 characters and is discarded. -/
def tC5 : Str := str "ITEM 3. " ++ List.replicate 600 'x' ++ str "ITEM 4. " ++
  List.replicate 100 'x' ++ str "ITEM 5. " ++ List.replicate 600 'x'

/-- The section for item 3 parsed from the C5 counterexample filing. -/
def secC5 : DocumentSection := (((parse_filing tC5)[0]?).getD (str "", dummySection)).2

set_option maxRecDepth 400000 in
set_option maxHeartbeats 4000000 in
/-- Witness for C5 at the concrete filing `tC5`: its first returned
section satisfies the content and offset invariants, and the returned
sections are chained without overlap. -/
theorem c5_section_invariants_witness :
    (500 < secC5.content.length ∧ secC5.start_idx < secC5.end_idx) ∧
    List.Chain' (fun a b : Str × DocumentSection => a.2.end_idx ≤ b.2.start_idx)
      (parse_filing tC5) :=
  ⟨(c5_section_invariants tC5).1 (str "3", secC5) (by decide),
   (c5_section_invariants tC5).2⟩

/-- Boundary-equality check of the claim: every pair of consecutive
returned sections has the earlier end offset equal to the later start
offset. -/
def chainEqCheck : List (Str × DocumentSection) → Bool
  | [] => true
  | [_] => true
  | a :: b :: rest => decide (a.2.end_idx = b.2.start_idx) && chainEqCheck (b :: rest)

/-- Claim C5 as stated: contents exceed 500 characters, starts precede
ends, consecutive sections' boundaries coincide, and the last retained
section ends at end-of-text. -/
def c5Stated (t : Str) : Prop :=
  ((parse_filing t).all fun pr =>
    decide (500 < pr.2.content.length) && decide (pr.2.start_idx < pr.2.end_idx)) = true ∧
  chainEqCheck (parse_filing t) = true ∧
  ((parse_filing t).getLast?.all fun pr =>
    decide (pr.2.end_idx = (cleanText t).length)) = true

set_option maxRecDepth 400000 in
set_option maxHeartbeats 4000000 in
/-- Counterexample to claim C5 as stated: on `tC5` the parser returns the
sections for items 3 and 5 with offsets (0, 608) and (716, 1324) — item 4's
discarded section leaves a gap, so the boundaries do not partition the
text. -/
theorem c5_partition_counterexample :
    (parse_filing tC5).map (fun pr => (pr.1, pr.2.start_idx, pr.2.end_idx)) =
      [(str "3", 0, 608), (str "5", 716, 1324)] ∧ ¬ c5Stated tC5 := by
  constructor
  · decide
  · intro h
    rcases h with ⟨_, hchain, _⟩
    revert hchain
    decide

/-! ### Claim C1: extraction from a two-header filing -/

/-- The first claim C1 header. -/
def h1aC : Str := str "ITEM 1A. RISK FACTORS"

/-- The second claim C1 header. -/
def h7C : Str := str "ITEM 7. MANAGEMENT'S DISCUSSION"

/-- A section-header pattern cannot match at a character that is not an
`i` (case-insensitively): every pattern starts with `item`. -/
theorem matchLen_none_head (num title : Str) (c : Char) (cs : Str)
    (h : c.toLower ≠ 'i') : matchLen num title (c :: cs) = none := by
  have hi : ciPfxRest (str "item") (c :: cs) = none := by
    show (if ('i').toLower = c.toLower then ciPfxRest (str "tem") cs else none) = none
    exact if_neg (fun he => h (by rw [← he]; decide))
  simp only [matchLen, hi]

/-- `findGo` at skip 0 steps over a position where the pattern fails. -/
theorem findGo_cons_none (num title : Str) (c : Char) (cs : Str) (i : Nat)
    (h : matchLen num title (c :: cs) = none) :
    findGo num title 0 (c :: cs) i = findGo num title 0 cs (i + 1) := by
  rw [findGo, h]

/-- `findGo` at skip 0 emits a match of the pattern and resumes at its
end. -/
theorem findGo_cons_some (num title : Str) (c : Char) (cs : Str) (i len : Nat)
    (h : matchLen num title (c :: cs) = some len) :
    findGo num title 0 (c :: cs) i =
      (i, i + len) :: findGo num title (len - 1) cs (i + 1) := by
  rw [findGo, h]

/-- A positive skip count consumes exactly that many characters. -/
theorem findGo_skip_len (num title : Str) :
    ∀ (pre rest : Str) (i : Nat),
      findGo num title pre.length (pre ++ rest) i =
        findGo num title 0 rest (i + pre.length) := by
  intro pre
  induction pre with
  | nil => intro rest i; simp
  | cons c cs ih =>
    intro rest i
    rw [List.cons_append, List.length_cons, findGo, ih rest (i + 1)]
    congr 1
    omega

/-- Scanning a region where the pattern matches at no position skips to
the region's end. -/
theorem findGo_skip_all (num title : Str) :
    ∀ (pre rest : Str) (i : Nat),
      (∀ n, n < pre.length → matchLen num title (pre.drop n ++ rest) = none) →
      findGo num title 0 (pre ++ rest) i = findGo num title 0 rest (i + pre.length) := by
  intro pre
  induction pre with
  | nil => intro rest i _; simp
  | cons c cs ih =>
    intro rest i h
    have h0 : matchLen num title (c :: (cs ++ rest)) = none := by
      have h00 := h 0 (by simp)
      simpa using h00
    rw [List.cons_append, findGo_cons_none num title c (cs ++ rest) i h0,
      ih rest (i + 1) (fun n hn => by
        have hs := h (n + 1) (by simp only [List.length_cons]; omega)
        simpa using hs),
      List.length_cons]
    congr 1
    omega

/-- Scanning a region with no `i`/`I` characters skips to its end. -/
theorem findGo_skip_noI (num title : Str) (b : Str)
    (hb : ∀ c ∈ b, c.toLower ≠ 'i') :
    ∀ (rest : Str) (i : Nat),
      findGo num title 0 (b ++ rest) i = findGo num title 0 rest (i + b.length) := by
  induction b with
  | nil => intro rest i; simp
  | cons c cs ih =>
    intro rest i
    rw [List.cons_append,
      findGo_cons_none num title c (cs ++ rest) i
        (matchLen_none_head num title c _ (hb c (List.mem_cons_self c cs))),
      ih (fun x hx => hb x (List.mem_cons_of_mem c hx)) rest (i + 1),
      List.length_cons]
    congr 1
    omega

/-- A scan over text where the pattern matches nowhere finds nothing. -/
theorem findGo_none_concrete (num title : Str) (t : Str) (i : Nat)
    (h : ∀ n, n < t.length → matchLen num title (t.drop n) = none) :
    findGo num title 0 t i = [] := by
  have hall := findGo_skip_all num title t [] i
    (fun n hn => by rw [List.append_nil]; exact h n hn)
  rw [List.append_nil] at hall
  rw [hall, findGo]

/-- On a claim C1 filing, a pattern that matches nowhere in the first
header scans directly to the second header, 21 + |body| characters in. -/
theorem fm_skip_header (num title : Str) (body : Str)
    (hb : ∀ c ∈ body, c.toLower ≠ 'i')
    (h : ∀ n, n < 21 → matchLen num title (h1aC.drop n ++ (body ++ h7C)) = none) :
    findMatches num title (h1aC ++ body ++ h7C) =
      findGo num title 0 h7C (21 + body.length) := by
  unfold findMatches
  have h21 : h1aC.length = 21 := rfl
  rw [List.append_assoc,
    findGo_skip_all num title h1aC (body ++ h7C) 0
      (fun n hn => h n (by rw [h21] at hn; exact hn)),
    findGo_skip_noI num title body hb h7C (0 + h1aC.length)]
  congr 1

/-- A stable three-element sort that is already ordered is the identity. -/
theorem sortPositions_three (a b c : SectionPos)
    (hab : ¬ b.start < a.start) (hbc : ¬ c.start < b.start) :
    sortPositions [a, b, c] = [a, b, c] := by
  rw [sortPositions, sortPositions, sortPositions, sortPositions,
    insertPos, insertPos, if_neg hbc, insertPos, if_neg hab]

/-- Deduplication keeps three entries with pairwise distinct item
numbers. -/
theorem dedupPositions_three (a b c : SectionPos)
    (hab : ¬ b.itemNum = a.itemNum) (hac : ¬ c.itemNum = a.itemNum)
    (hbc : ¬ c.itemNum = b.itemNum) :
    dedupPositions [a, b, c] [] = [a, b, c] := by
  rw [dedupPositions, if_neg (List.not_mem_nil _),
    dedupPositions, if_neg (by simp [hab]),
    dedupPositions, if_neg (by simp [hac, hbc]),
    dedupPositions]

set_option maxHeartbeats 1000000 in
/-- Claim C1 as amended: on a cleaned filing consisting of the header
`"ITEM 1A. RISK FACTORS"`, a body of more than 500 characters free of
`i`/`I` and whitespace characters, and the header
`"ITEM 7. MANAGEMENT'S DISCUSSION"`, `parse_filing` returns exactly ONE
section, for item `"1A"`, ending at the second header's start offset
`21 + |body|`; no `"7"` section is returned, because its content — just
the 31-character header itself — fails the 500-character filter. -/
theorem c1_section_extraction (body : Str)
    (hlen : 500 < body.length)
    (hbody : ∀ c ∈ body, c.toLower ≠ 'i' ∧ isPySpace c = false)
    (hclean : cleanText (h1aC ++ body ++ h7C) = h1aC ++ body ++ h7C) :
    parse_filing (h1aC ++ body ++ h7C) =
      [(str "1A",
        ⟨str "1A", str "Risk Factors", h1aC ++ body, 0, 21 + body.length⟩)] := by
  have hbI : ∀ c ∈ body, c.toLower ≠ 'i' := fun c hc => (hbody c hc).1
  have hbS : ∀ c ∈ body, isPySpace c = false := fun c hc => (hbody c hc).2
  have hne : body ≠ [] := by
    intro h0
    rw [h0] at hlen
    simp at hlen
  have hfm1 : findMatches (str "1") (str "Business") (h1aC ++ body ++ h7C) =
      [(0, 0 + 6)] := by
    unfold findMatches
    rw [List.append_assoc,
      show h1aC ++ (body ++ h7C) =
        'I' :: (str "TEM 1" ++ (str "A. RISK FACTORS" ++ (body ++ h7C))) from rfl,
      findGo_cons_some _ _ _ _ 0 6 (by rfl),
      show (6 - 1 : Nat) = (str "TEM 1").length from rfl,
      findGo_skip_len,
      findGo_skip_all _ _ (str "A. RISK FACTORS") (body ++ h7C) _
        (by
          intro n hn
          rw [show (str "A. RISK FACTORS").length = 15 from rfl] at hn
          interval_cases n <;> rfl),
      findGo_skip_noI _ _ body hbI h7C,
      findGo_none_concrete _ _ h7C _ (by decide)]
  have hfm1a : findMatches (str "1A") (str "Risk Factors") (h1aC ++ body ++ h7C) =
      [(0, 0 + 21)] := by
    unfold findMatches
    rw [List.append_assoc,
      show h1aC ++ (body ++ h7C) =
        'I' :: (str "TEM 1A. RISK FACTORS" ++ (body ++ h7C)) from rfl,
      findGo_cons_some _ _ _ _ 0 21 (by rfl),
      show (21 - 1 : Nat) = (str "TEM 1A. RISK FACTORS").length from rfl,
      findGo_skip_len,
      findGo_skip_noI _ _ body hbI h7C,
      findGo_none_concrete _ _ h7C _ (by decide)]
  have hfm1b : findMatches (str "1B") (str "Unresolved Staff Comments")
      (h1aC ++ body ++ h7C) = [] := by
    rw [fm_skip_header (str "1B") (str "Unresolved Staff Comments") body hbI
      (by intro n hn; interval_cases n <;> rfl)]
    exact findGo_none_concrete _ _ _ _ (by decide)
  have hfm1c : findMatches (str "1C") (str "Cybersecurity")
      (h1aC ++ body ++ h7C) = [] := by
    rw [fm_skip_header (str "1C") (str "Cybersecurity") body hbI
      (by intro n hn; interval_cases n <;> rfl)]
    exact findGo_none_concrete _ _ _ _ (by decide)
  have hfm2 : findMatches (str "2") (str "Properties")
      (h1aC ++ body ++ h7C) = [] := by
    rw [fm_skip_header (str "2") (str "Properties") body hbI
      (by intro n hn; interval_cases n <;> rfl)]
    exact findGo_none_concrete _ _ _ _ (by decide)
  have hfm3 : findMatches (str "3") (str "Legal Proceedings")
      (h1aC ++ body ++ h7C) = [] := by
    rw [fm_skip_header (str "3") (str "Legal Proceedings") body hbI
      (by intro n hn; interval_cases n <;> rfl)]
    exact findGo_none_concrete _ _ _ _ (by decide)
  have hfm4 : findMatches (str "4") (str "Mine Safety Disclosures")
      (h1aC ++ body ++ h7C) = [] := by
    rw [fm_skip_header (str "4") (str "Mine Safety Disclosures") body hbI
      (by intro n hn; interval_cases n <;> rfl)]
    exact findGo_none_concrete _ _ _ _ (by decide)
  have hfm5 : findMatches (str "5") (str "Market for Registrant's Common Equity")
      (h1aC ++ body ++ h7C) = [] := by
    rw [fm_skip_header (str "5") (str "Market for Registrant's Common Equity") body hbI
      (by intro n hn; interval_cases n <;> rfl)]
    exact findGo_none_concrete _ _ _ _ (by decide)
  have hfm6 : findMatches (str "6") (str "Selected Financial Data")
      (h1aC ++ body ++ h7C) = [] := by
    rw [fm_skip_header (str "6") (str "Selected Financial Data") body hbI
      (by intro n hn; interval_cases n <;> rfl)]
    exact findGo_none_concrete _ _ _ _ (by decide)
  have hfm7 : findMatches (str "7") (str "Management's Discussion and Analysis")
      (h1aC ++ body ++ h7C) = [(21 + body.length, 21 + body.length + 8)] := by
    rw [fm_skip_header (str "7") (str "Management's Discussion and Analysis") body hbI
      (by intro n hn; interval_cases n <;> rfl)]
    rw [show h7C = 'I' :: (str "TEM 7. " ++ str "MANAGEMENT'S DISCUSSION") from rfl,
      findGo_cons_some _ _ _ _ _ 8 (by rfl),
      show (8 - 1 : Nat) = (str "TEM 7. ").length from rfl,
      findGo_skip_len,
      findGo_none_concrete _ _ (str "MANAGEMENT'S DISCUSSION") _ (by decide)]
  have hfm7a : findMatches (str "7A")
      (str "Quantitative and Qualitative Disclosures About Market Risk")
      (h1aC ++ body ++ h7C) = [] := by
    rw [fm_skip_header (str "7A")
      (str "Quantitative and Qualitative Disclosures About Market Risk") body hbI
      (by intro n hn; interval_cases n <;> rfl)]
    exact findGo_none_concrete _ _ _ _ (by decide)
  have hfm8 : findMatches (str "8") (str "Financial Statements and Supplementary Data")
      (h1aC ++ body ++ h7C) = [] := by
    rw [fm_skip_header (str "8") (str "Financial Statements and Supplementary Data")
      body hbI (by intro n hn; interval_cases n <;> rfl)]
    exact findGo_none_concrete _ _ _ _ (by decide)
  have hfm9 : findMatches (str "9") (str "Changes in and Disagreements With Accountants")
      (h1aC ++ body ++ h7C) = [] := by
    rw [fm_skip_header (str "9") (str "Changes in and Disagreements With Accountants")
      body hbI (by intro n hn; interval_cases n <;> rfl)]
    exact findGo_none_concrete _ _ _ _ (by decide)
  have hfm9a : findMatches (str "9A") (str "Controls and Procedures")
      (h1aC ++ body ++ h7C) = [] := by
    rw [fm_skip_header (str "9A") (str "Controls and Procedures") body hbI
      (by intro n hn; interval_cases n <;> rfl)]
    exact findGo_none_concrete _ _ _ _ (by decide)
  have hfm9b : findMatches (str "9B") (str "Other Information")
      (h1aC ++ body ++ h7C) = [] := by
    rw [fm_skip_header (str "9B") (str "Other Information") body hbI
      (by intro n hn; interval_cases n <;> rfl)]
    exact findGo_none_concrete _ _ _ _ (by decide)
  have hfm9c : findMatches (str "9C") (str "Disclosure Regarding Foreign Jurisdictions")
      (h1aC ++ body ++ h7C) = [] := by
    rw [fm_skip_header (str "9C") (str "Disclosure Regarding Foreign Jurisdictions")
      body hbI (by intro n hn; interval_cases n <;> rfl)]
    exact findGo_none_concrete _ _ _ _ (by decide)
  have hall : allPositions (h1aC ++ body ++ h7C) =
      [⟨0, str "1", slice (h1aC ++ body ++ h7C) 0 6, str "Business"⟩,
       ⟨0, str "1A", slice (h1aC ++ body ++ h7C) 0 21, str "Risk Factors"⟩,
       ⟨21 + body.length, str "7",
         slice (h1aC ++ body ++ h7C) (21 + body.length) (21 + body.length + 8),
         str "Management's Discussion and Analysis"⟩] := by
    simp only [allPositions, SECTIONS, sectionPositionsFor, List.flatMap_cons,
      List.flatMap_nil, List.append_nil]
    rw [hfm1, hfm1a, hfm1b, hfm1c, hfm2, hfm3, hfm4, hfm5, hfm6, hfm7, hfm7a,
      hfm8, hfm9, hfm9a, hfm9b, hfm9c]
    simp only [List.map_cons, List.map_nil, List.nil_append, List.append_nil,
      List.cons_append, zero_add]
  have e2 : slice (h1aC ++ body ++ h7C) 0 (21 + body.length) = h1aC ++ body := by
    unfold slice
    rw [List.drop_zero, Nat.sub_zero,
      show 21 + body.length = (h1aC ++ body).length from by
        rw [List.length_append, show h1aC.length = 21 from rfl],
      List.take_left]
  have e2s : pyStrip (h1aC ++ body) = h1aC ++ body := by
    apply pyStrip_id_of_ends
    · intro c hc
      rw [show (h1aC ++ body).head? = some 'I' from rfl] at hc
      simp only [Option.mem_def, Option.some.injEq] at hc
      rw [← hc]
      decide
    · intro c hc
      rw [List.getLast?_append_of_ne_nil _ hne] at hc
      exact hbS c (List.mem_of_mem_getLast? hc)
  have e3 : slice (h1aC ++ body ++ h7C) (21 + body.length)
      (h1aC ++ body ++ h7C).length = h7C := by
    unfold slice
    rw [show 21 + body.length = (h1aC ++ body).length from by
        rw [List.length_append, show h1aC.length = 21 from rfl],
      List.drop_left]
    apply List.take_of_length_le
    rw [List.length_append, List.length_append]
    omega
  rw [parse_filing_eq]
  unfold uniquePositions
  rw [hclean, hall,
    sortPositions_three _ _ _ ?ha1 ?ha2,
    dedupPositions_three _ _ _ ?hb1 ?hb2 ?hb3]
  case ha1 => simp
  case ha2 => simp
  case hb1 =>
    show ¬ str "1A" = str "1"
    decide
  case hb2 =>
    show ¬ str "7" = str "1"
    decide
  case hb3 =>
    show ¬ str "7" = str "1A"
    decide
  simp only [extractSections, nextEnd]
  rw [show slice (h1aC ++ body ++ h7C) 0 0 = ([] : Str) from rfl,
    show pyStrip ([] : Str) = [] from rfl,
    if_neg (by decide : ¬ (500 < List.length ([] : Str))),
    e2, e2s,
    if_pos (show 500 < (h1aC ++ body).length from by
      rw [List.length_append, show h1aC.length = 21 from rfl]
      omega),
    e3,
    show pyStrip h7C = h7C from rfl,
    if_neg (by decide : ¬ (500 < h7C.length))]
  simp

/-- The claim C1 test filing: the two headers around a 501-character
body. -/
def tC1 : Str := h1aC ++ List.replicate 501 'x' ++ h7C

set_option maxRecDepth 400000 in
set_option maxHeartbeats 4000000 in
/-- Counterexample to claim C1 as stated: on exactly the claimed shape —
`"ITEM 1A. RISK FACTORS"`, a >500-character body, then
`"ITEM 7. MANAGEMENT'S DISCUSSION"` — `parse_filing` returns a single
section `"1A"`, not two: the `"7"` section's content is only the
31-character trailing header, which the 500-character filter drops. -/
theorem c1_single_section_counterexample :
    (parse_filing tC1).map Prod.fst = [str "1A"] ∧
      ¬ (parse_filing tC1).length = 2 := by
  have h : (parse_filing tC1).map Prod.fst = [str "1A"] := by decide
  refine ⟨h, fun h2 => ?_⟩
  have hl := congrArg List.length h
  simp only [List.length_map, List.length_cons, List.length_nil] at hl
  omega

set_option maxRecDepth 400000 in
set_option maxHeartbeats 4000000 in
/-- Witness for the amended claim C1 at a concrete 501-character body. -/
theorem c1_section_extraction_witness :
    parse_filing (h1aC ++ List.replicate 501 'x' ++ h7C) =
      [(str "1A",
        ⟨str "1A", str "Risk Factors", h1aC ++ List.replicate 501 'x', 0,
          21 + (List.replicate 501 'x').length⟩)] :=
  c1_section_extraction (List.replicate 501 'x')
    (by simp)
    (fun c hc => by
      rw [List.eq_of_mem_replicate hc]
      exact ⟨by decide, by decide⟩)
    (by decide)

end AskSEC
